import Mathlib

/-!
Verification of the dysk-lustre mount enumeration, discovery and
aggregation pipeline (Rust sources under cli/src), as a shallow embedding
in Lean 4.  Machine integers are modelled by Nat with explicit reduction
modulo 2 ^ 64 where the Rust code performs wrapping u64 arithmetic;
strings are Lean Strings compared through their character lists, which
coincides with Rust's byte-wise lexicographic order on UTF-8 data.
-/

/-! ## Generic string and ordering helpers -/

/-- Lexicographic comparison of character lists; this is the order Rust's
derived Ord on str induces (byte order on UTF-8 equals code-point order). -/
def charsCmp : List Char → List Char → Ordering
  | [], [] => .eq
  | [], _ :: _ => .lt
  | _ :: _, [] => .gt
  | a :: as, b :: bs =>
      if a < b then .lt else if b < a then .gt else charsCmp as bs

/-- Comparison of Lean strings, modelling Rust String/str Ord::cmp. -/
def strCmp (a b : String) : Ordering := charsCmp a.toList b.toList

/-- Comparison of naturals, modelling Ord::cmp on Rust unsigned integers. -/
def natCmp (a b : Nat) : Ordering := if a < b then .lt else if b < a then .gt else .eq

theorem charsCmp_swap (a b : List Char) : charsCmp b a = (charsCmp a b).swap := by
  induction a generalizing b with
  | nil => cases b <;> rfl
  | cons x xs ih =>
      cases b with
      | nil => rfl
      | cons y ys =>
          by_cases h1 : x < y
          · have h2 : ¬ y < x := lt_asymm h1
            simp [charsCmp, h1, h2, Ordering.swap]
          · by_cases h2 : y < x
            · simp [charsCmp, h1, h2, Ordering.swap]
            · simp [charsCmp, h1, h2, ih ys]

theorem charsCmp_eq_eq {a b : List Char} (h : charsCmp a b = .eq) : a = b := by
  induction a generalizing b with
  | nil => cases b with
      | nil => rfl
      | cons y ys => simp [charsCmp] at h
  | cons x xs ih =>
      cases b with
      | nil => simp [charsCmp] at h
      | cons y ys =>
          by_cases h1 : x < y
          · simp [charsCmp, h1] at h
          · by_cases h2 : y < x
            · simp [charsCmp, h1, h2] at h
            · have hxy : x = y := le_antisymm (not_lt.mp h2) (not_lt.mp h1)
              simp [charsCmp, h1, h2] at h
              simp [hxy, ih h]

theorem charsCmp_lt_trans {a b c : List Char}
    (h1 : charsCmp a b = .lt) (h2 : charsCmp b c = .lt) : charsCmp a c = .lt := by
  induction a generalizing b c with
  | nil =>
      cases b with
      | nil => simp [charsCmp] at h1
      | cons y ys => cases c with
          | nil => simp [charsCmp] at h2
          | cons z zs => rfl
  | cons x xs ih =>
      cases b with
      | nil => simp [charsCmp] at h1
      | cons y ys =>
          cases c with
          | nil => simp [charsCmp] at h2
          | cons z zs =>
              by_cases hxy : x < y
              · by_cases hyz : y < z
                · have : x < z := lt_trans hxy hyz
                  simp [charsCmp, this]
                · by_cases hzy : z < y
                  · simp [charsCmp, hyz, hzy] at h2
                  · have hyz' : y = z := le_antisymm (not_lt.mp hzy) (not_lt.mp hyz)
                    simp [charsCmp, hyz' ▸ hxy]
              · by_cases hyx : y < x
                · simp [charsCmp, hxy, hyx] at h1
                · have hxy' : x = y := le_antisymm (not_lt.mp hyx) (not_lt.mp hxy)
                  subst hxy'
                  by_cases hxz : x < z
                  · simp [charsCmp, hxz]
                  · by_cases hzx : z < x
                    · simp [charsCmp, hxz, hzx] at h2
                    · simp [charsCmp, hxy, hxz, hzx] at h1 h2 ⊢
                      exact ih h1 h2

theorem strCmp_swap (a b : String) : strCmp b a = (strCmp a b).swap :=
  charsCmp_swap a.toList b.toList

theorem strCmp_eq_eq {a b : String} (h : strCmp a b = .eq) : a = b := by
  have := charsCmp_eq_eq h
  cases a; cases b; simpa [String.toList] using congrArg String.mk this

theorem strCmp_lt_trans {a b c : String}
    (h1 : strCmp a b = .lt) (h2 : strCmp b c = .lt) : strCmp a c = .lt :=
  charsCmp_lt_trans h1 h2

theorem natCmp_swap (a b : Nat) : natCmp b a = (natCmp a b).swap := by
  by_cases h1 : a < b
  · have h2 : ¬ b < a := lt_asymm h1
    simp [natCmp, h1, h2, Ordering.swap]
  · by_cases h2 : b < a
    · simp [natCmp, h1, h2, Ordering.swap]
    · simp [natCmp, h1, h2, Ordering.swap]

/-! ## A model of Rust slice::sort_by

Rust's sort_by is a stable sort; for the slice lengths arising here it
runs as an insertion sort: each element sinks leftwards through the
already-sorted prefix while it compares strictly Less with its left
neighbour.  We model this exactly: the accumulator pRev is the sorted
prefix kept in reversed order, so sinking inspects its head first. -/

def sinkRev (cmp : α → α → Ordering) (x : α) : List α → List α
  | [] => [x]
  | z :: zs => if cmp x z = .lt then z :: sinkRev cmp x zs else x :: z :: zs

def sortByRust (cmp : α → α → Ordering) (l : List α) : List α :=
  (l.foldl (fun pRev x => sinkRev cmp x pRev) []).reverse

theorem sinkRev_perm (cmp : α → α → Ordering) (x : α) (p : List α) :
    List.Perm (sinkRev cmp x p) (x :: p) := by
  induction p with
  | nil => simp [sinkRev]
  | cons z zs ih =>
      by_cases h : cmp x z = .lt
      · simp only [sinkRev, h, if_pos]
        exact (ih.cons z).trans (List.Perm.swap _ _ _)
      · simp [sinkRev, h]

theorem sortByRust_perm (cmp : α → α → Ordering) (l : List α) :
    List.Perm (sortByRust cmp l) l := by
  suffices h : ∀ (acc : List α),
      List.Perm (l.foldl (fun pRev x => sinkRev cmp x pRev) acc) (l.reverse ++ acc) by
    have h0 := h []
    simp only [List.append_nil] at h0
    exact (List.reverse_perm _).trans (h0.trans (List.reverse_perm l))
  induction l with
  | nil => intro acc; simp
  | cons x xs ih =>
      intro acc
      simp only [List.foldl_cons, List.reverse_cons, List.append_assoc]
      refine (ih _).trans ?_
      refine (List.Perm.append_left _ (sinkRev_perm cmp x acc)).trans ?_
      simp

theorem getLast?_cons_of_ne {a : α} {l : List α} (h : l ≠ []) :
    (a :: l).getLast? = l.getLast? := by
  cases l with
  | nil => exact absurd rfl h
  | cons b t => exact List.getLast?_cons_cons ..

theorem sinkRev_ne_nil (cmp : α → α → Ordering) (x : α) (p : List α) :
    sinkRev cmp x p ≠ [] := by
  intro hnil
  have := (sinkRev_perm cmp x p).length_eq
  simp [hnil] at this

/-- The last element of the reversed sorted prefix after sinking x:
x becomes the new bottom element exactly when it compares Less with every
element of the prefix. -/
theorem getLast?_sinkRev (cmp : α → α → Ordering) (x : α) (p : List α) :
    (sinkRev cmp x p).getLast? =
      if p.all (fun z => cmp x z = .lt) then some x else p.getLast? := by
  induction p with
  | nil => simp [sinkRev]
  | cons z zs ih =>
      by_cases h : cmp x z = .lt
      · have hstep : (sinkRev cmp x (z :: zs)).getLast? = (sinkRev cmp x zs).getLast? := by
          simp only [sinkRev, h, if_pos]
          exact getLast?_cons_of_ne (sinkRev_ne_nil cmp x zs)
        rw [hstep, ih]
        by_cases hall : zs.all (fun z => cmp x z = .lt)
        · simp [List.all_cons, h, hall]
        · have hzs : zs ≠ [] := by
            intro hz; subst hz; simp at hall
          have hallb : zs.all (fun z => cmp x z = .lt) = false := by simpa using hall
          simp only [List.all_cons, hallb, Bool.and_false, if_neg, Bool.false_eq_true,
            not_false_iff]
          rw [getLast?_cons_of_ne hzs]
      · have hno : ((z :: zs).all (fun z => cmp x z = .lt)) = false := by
          simp [List.all_cons, h]
        simp only [sinkRev, h, if_neg, not_false_iff, hno, Bool.false_eq_true]
        exact List.getLast?_cons_cons ..

theorem sinkRev_subset (cmp : α → α → Ordering) (x : α) (p : List α) {y : α}
    (hy : y ∈ sinkRev cmp x p) : y = x ∨ y ∈ p := by
  have := (sinkRev_perm cmp x p).mem_iff.mp hy
  simpa using this

/-- Sortedness of the insertion sort: if the comparator is antisymmetric and
its non-Greater relation transitive on the members of a set S covering the
list, the output is pairwise non-Greater. -/
theorem sinkRev_pairwise (cmp : α → α → Ordering) (S : α → Prop)
    (hswap : ∀ a b, S a → S b → cmp b a = (cmp a b).swap)
    (htrans : ∀ a b c, S a → S b → S c →
      cmp a b ≠ .gt → cmp b c ≠ .gt → cmp a c ≠ .gt)
    (x : α) (hx : S x) (p : List α) (hpS : ∀ y ∈ p, S y)
    (hp : p.Pairwise (fun a b => cmp b a ≠ .gt)) :
    (sinkRev cmp x p).Pairwise (fun a b => cmp b a ≠ .gt) := by
  induction p with
  | nil => simp [sinkRev]
  | cons z zs ih =>
      rcases List.pairwise_cons.mp hp with ⟨hz, hzs⟩
      by_cases h : cmp x z = .lt
      · simp only [sinkRev, h, if_pos]
        refine List.pairwise_cons.mpr ⟨?_, ?_⟩
        · intro w hw
          rcases sinkRev_subset cmp x zs hw with hwx | hwzs
          · subst hwx; simp [h]
          · exact hz w hwzs
        · exact ih (fun y hy => hpS y (List.mem_cons_of_mem z hy)) hzs
      · simp only [sinkRev, h, if_neg, not_false_iff]
        have hzx : cmp z x ≠ .gt := by
          rw [hswap x z hx (hpS z (List.mem_cons_self z zs))]
          intro hc
          cases hcase : cmp x z <;> simp [hcase, Ordering.swap] at hc
          exact h hcase
        refine List.pairwise_cons.mpr ⟨?_, hp⟩
        intro w hw
        rcases List.mem_cons.mp hw with hwz | hwzs
        · subst hwz; exact hzx
        · exact htrans w z x (hpS w (List.mem_cons_of_mem z hwzs))
            (hpS z (List.mem_cons_self z zs)) hx (hz w hwzs) hzx

theorem sortByRust_pairwise (cmp : α → α → Ordering) (S : α → Prop)
    (hswap : ∀ a b, S a → S b → cmp b a = (cmp a b).swap)
    (htrans : ∀ a b c, S a → S b → S c →
      cmp a b ≠ .gt → cmp b c ≠ .gt → cmp a c ≠ .gt)
    (l : List α) (hl : ∀ y ∈ l, S y) :
    (sortByRust cmp l).Pairwise (fun a b => cmp a b ≠ .gt) := by
  suffices h : ∀ (xs : List α), (∀ y ∈ xs, S y) → ∀ (acc : List α), (∀ y ∈ acc, S y) →
      acc.Pairwise (fun a b => cmp b a ≠ .gt) →
      (xs.foldl (fun pRev x => sinkRev cmp x pRev) acc).Pairwise (fun a b => cmp b a ≠ .gt) by
    have hres := h l hl [] (by simp) (by simp)
    unfold sortByRust
    rw [List.pairwise_reverse]
    exact hres
  intro xs
  induction xs with
  | nil => intro _ acc _ hacc; simpa using hacc
  | cons x xs ih =>
      intro hxs acc haccS hacc
      simp only [List.foldl_cons]
      refine ih (fun y hy => hxs y (List.mem_cons_of_mem x hy)) _ ?_ ?_
      · intro y hy
        rcases sinkRev_subset cmp x acc hy with h1 | h2
        · rw [h1]; exact hxs x (List.mem_cons_self x xs)
        · exact haccS y h2
      · exact sinkRev_pairwise cmp S hswap htrans x (hxs x (List.mem_cons_self x xs))
          acc haccS hacc

/-- Spec-level scan computing the head of the insertion-sorted list: the
candidate is replaced by x exactly when x compares Less with everything
seen so far. -/
def bestCandAux (cmp : α → α → Ordering) : List α → Option α → List α → Option α
  | _, cand, [] => cand
  | seen, cand, x :: xs =>
      bestCandAux cmp (x :: seen)
        (if seen.all (fun z => cmp x z = .lt) then some x else cand) xs

theorem getLast?_foldl_sinkRev (cmp : α → α → Ordering) (xs : List α) :
    ∀ (p seen : List α), List.Perm p seen →
      (xs.foldl (fun pRev x => sinkRev cmp x pRev) p).getLast? =
        bestCandAux cmp seen p.getLast? xs := by
  induction xs with
  | nil => intro p seen _; rfl
  | cons x xs ih =>
      intro p seen hperm
      simp only [List.foldl_cons, bestCandAux]
      have hall : p.all (fun z => cmp x z = .lt) = seen.all (fun z => cmp x z = .lt) := by
        apply Bool.eq_iff_iff.mpr
        simp only [List.all_eq_true]
        exact ⟨fun h z hz => h z (hperm.mem_iff.mpr hz),
               fun h z hz => h z (hperm.mem_iff.mp hz)⟩
      have hnext := ih (sinkRev cmp x p) (x :: seen)
        ((sinkRev_perm cmp x p).trans (hperm.cons x))
      rw [hnext, getLast?_sinkRev, hall]

theorem head?_sortByRust (cmp : α → α → Ordering) (l : List α) :
    (sortByRust cmp l).head? = bestCandAux cmp [] none l := by
  unfold sortByRust
  rw [List.head?_reverse]
  have := getLast?_foldl_sinkRev cmp l [] [] (List.Perm.refl [])
  simpa using this

/-! ## Target discovery
(cli/src/lustre_core.rs collect_lustre_mounts; cli/src/lustre_bindings.rs) -/

def LOV_ALL_STRIPES : Nat := 65535

def LL_STATFS_LMV : Nat := 1

def LL_STATFS_LOV : Nat := 2

/-- One per-family enumeration loop of collect_lustre_mounts.  rc gives the
native result code returned by llapi_obd_fstatfs at each index: -38 (ENODEV)
terminates the loop, -11 (EAGAIN) skips the index, 0 (success) and -61
(ENODATA, inactive target) emit one component record, any other code is
skipped.  create_lustre_component_mount never fails, so every emitting
iteration pushes a record.  The result is the list of emitted indices paired
with the number of while-body iterations executed; the fuel argument is the
remaining while-guard budget LOV_ALL_STRIPES - idx. -/
def familyScan (rc : Nat → Int) (idx : Nat) : Nat → (List Nat × Nat)
  | 0 => ([], 0)
  | fuel+1 =>
    if rc idx = -38 then ([], 1)
    else if rc idx = -11 then
      let r := familyScan rc (idx+1) fuel
      (r.1, r.2 + 1)
    else if rc idx = 0 ∨ rc idx = -61 then
      let r := familyScan rc (idx+1) fuel
      (idx :: r.1, r.2 + 1)
    else
      let r := familyScan rc (idx+1) fuel
      (r.1, r.2 + 1)

/-- The (family, index) identities of the component records produced by one
collect_lustre_mounts pass: the MDT loop (LL_STATFS_LMV) followed by the OST
loop (LL_STATFS_LOV).  The synthesized aggregate client record carries no
(family, index) identity. -/
def collectLustreMountPairs (rcMdt rcOst : Nat → Int) : List (String × Nat) :=
  ((familyScan rcMdt 0 LOV_ALL_STRIPES).1.map (fun i => ("MDT", i))) ++
  ((familyScan rcOst 0 LOV_ALL_STRIPES).1.map (fun i => ("OST", i)))

theorem familyScan_steps_le (rc : Nat → Int) (idx fuel : Nat) :
    (familyScan rc idx fuel).2 ≤ fuel := by
  induction fuel generalizing idx with
  | zero => simp [familyScan]
  | succ n ih =>
      simp only [familyScan]
      by_cases h1 : rc idx = -38
      · simp [h1]
      · by_cases h2 : rc idx = -11
        · simpa [h1, h2] using Nat.succ_le_succ (ih (idx+1))
        · by_cases h3 : rc idx = 0 ∨ rc idx = -61
          · simpa [h1, h2, h3] using Nat.succ_le_succ (ih (idx+1))
          · simpa [h1, h2, h3] using Nat.succ_le_succ (ih (idx+1))

theorem familyScan_mem_ge (rc : Nat → Int) (idx fuel : Nat) :
    ∀ i ∈ (familyScan rc idx fuel).1, idx ≤ i := by
  induction fuel generalizing idx with
  | zero => simp [familyScan]
  | succ n ih =>
      intro i hi
      simp only [familyScan] at hi
      by_cases h1 : rc idx = -38
      · simp [h1] at hi
      · by_cases h2 : rc idx = -11
        · simp only [h1, h2, if_neg, if_pos, not_false_iff] at hi
          exact Nat.le_of_succ_le (ih (idx+1) i hi)
        · by_cases h3 : rc idx = 0 ∨ rc idx = -61
          · simp only [h1, h2, h3, if_neg, if_pos, not_false_iff] at hi
            rcases List.mem_cons.mp hi with rfl | hi'
            · exact Nat.le_refl i
            · exact Nat.le_of_succ_le (ih (idx+1) i hi')
          · simp only [h1, h2, h3, if_neg, not_false_iff] at hi
            exact Nat.le_of_succ_le (ih (idx+1) i hi)

theorem familyScan_sorted (rc : Nat → Int) (idx fuel : Nat) :
    ((familyScan rc idx fuel).1).Pairwise (· < ·) := by
  induction fuel generalizing idx with
  | zero => simp [familyScan]
  | succ n ih =>
      simp only [familyScan]
      by_cases h1 : rc idx = -38
      · simp [h1]
      · by_cases h2 : rc idx = -11
        · simpa [h1, h2] using ih (idx+1)
        · by_cases h3 : rc idx = 0 ∨ rc idx = -61
          · simp only [h1, h2, h3, if_neg, if_pos, not_false_iff]
            refine List.pairwise_cons.mpr ⟨?_, ih (idx+1)⟩
            intro j hj
            exact Nat.lt_of_succ_le (familyScan_mem_ge rc (idx+1) n j hj)
          · simpa [h1, h2, h3] using ih (idx+1)

theorem familyScan_nodup (rc : Nat → Int) (idx fuel : Nat) :
    ((familyScan rc idx fuel).1).Nodup :=
  (familyScan_sorted rc idx fuel).imp (fun h => Nat.ne_of_lt h)

/-- C1: for every sequence of native result codes, each per-family
enumeration loop of collect_lustre_mounts executes at most
LOV_ALL_STRIPES = 65535 iterations of its while body, and one discovery
pass never emits two component records with the same (family, index)
identity. -/
theorem collect_lustre_mounts_terminates_and_pairs_nodup
    (rcMdt rcOst : Nat → Int) :
    (familyScan rcMdt 0 LOV_ALL_STRIPES).2 ≤ LOV_ALL_STRIPES ∧
    (familyScan rcOst 0 LOV_ALL_STRIPES).2 ≤ LOV_ALL_STRIPES ∧
    (collectLustreMountPairs rcMdt rcOst).Nodup := by
  refine ⟨familyScan_steps_le _ _ _, familyScan_steps_le _ _ _, ?_⟩
  unfold collectLustreMountPairs
  rw [List.nodup_append]
  refine ⟨?_, ?_, ?_⟩
  · exact (familyScan_nodup rcMdt 0 LOV_ALL_STRIPES).map
      (fun i j h => (Prod.mk.injEq _ _ _ _).mp h |>.2)
  · exact (familyScan_nodup rcOst 0 LOV_ALL_STRIPES).map
      (fun i j h => (Prod.mk.injEq _ _ _ _).mp h |>.2)
  · intro p hp hq
    rcases List.mem_map.mp hp with ⟨i, _, rfl⟩
    rcases List.mem_map.mp hq with ⟨j, _, hj⟩
    have : ("OST" : String) = "MDT" := ((Prod.mk.injEq _ _ _ _).mp hj).1
    simp at this

/-! ## Aggregate client record
(cli/src/lustre_core.rs create_lustre_client_mount) -/

/-- The fields of the native obd_statfs reply that the aggregation reads
(cli/src/lustre_bindings.rs obd_statfs); blocks/files fields are u64 and
os_bsize is u32. -/
structure ObdStatfs where
  os_blocks : Nat
  os_bfree : Nat
  os_bavail : Nat
  os_files : Nat
  os_ffree : Nat
  os_bsize : Nat
deriving Repr, DecidableEq

/-- The mutable accumulation state of create_lustre_client_mount's OST
loop: total_blocks/total_bfree/total_bavail are u64 (wrapping adds are
modelled by % 2 ^ 64), bsize starts at the 4096 default. -/
structure ClientAgg where
  total_blocks : Nat
  total_bfree : Nat
  total_bavail : Nat
  bsize : Nat
  ost_count : Nat
deriving Repr, DecidableEq

/-- The MDT-loop accumulation state (inode figures). -/
structure MdtAgg where
  total_files : Nat
  total_ffree : Nat
deriving Repr, DecidableEq

/-- The OST statistics loop of create_lustre_client_mount: ENODEV (-38)
breaks, EAGAIN (-11) skips, only rc = 0 accumulates; the bsize slot is
overwritten by the current target's os_bsize whenever it still holds the
4096 default. -/
def ostAggScan (rc : Nat → Int) (st : Nat → ObdStatfs) (idx : Nat)
    (acc : ClientAgg) : Nat → ClientAgg
  | 0 => acc
  | fuel+1 =>
    if rc idx = -38 then acc
    else if rc idx = -11 then ostAggScan rc st (idx+1) acc fuel
    else if rc idx = 0 then
      ostAggScan rc st (idx+1)
        { total_blocks := (acc.total_blocks + (st idx).os_blocks) % 2^64,
          total_bfree := (acc.total_bfree + (st idx).os_bfree) % 2^64,
          total_bavail := (acc.total_bavail + (st idx).os_bavail) % 2^64,
          bsize := if acc.bsize = 4096 then (st idx).os_bsize else acc.bsize,
          ost_count := acc.ost_count + 1 } fuel
    else ostAggScan rc st (idx+1) acc fuel

/-- The MDT statistics loop of create_lustre_client_mount: same control
flow, accumulating os_files and os_ffree on success only. -/
def mdtAggScan (rc : Nat → Int) (st : Nat → ObdStatfs) (idx : Nat)
    (acc : MdtAgg) : Nat → MdtAgg
  | 0 => acc
  | fuel+1 =>
    if rc idx = -38 then acc
    else if rc idx = -11 then mdtAggScan rc st (idx+1) acc fuel
    else if rc idx = 0 then
      mdtAggScan rc st (idx+1)
        { total_files := (acc.total_files + (st idx).os_files) % 2^64,
          total_ffree := (acc.total_ffree + (st idx).os_ffree) % 2^64 } fuel
    else mdtAggScan rc st (idx+1) acc fuel

/-- The indices whose per-index statistics query succeeded (rc = 0),
visited by the client aggregation loops before their terminal condition:
the successful targets in the claim's sense. -/
def clientSuccScan (rc : Nat → Int) (idx : Nat) : Nat → List Nat
  | 0 => []
  | fuel+1 =>
    if rc idx = -38 then []
    else if rc idx = -11 then clientSuccScan rc (idx+1) fuel
    else if rc idx = 0 then idx :: clientSuccScan rc (idx+1) fuel
    else clientSuccScan rc (idx+1) fuel

/-- lfs_core::Inodes as used by the conversion. -/
structure Inodes where
  files : Nat
  ffree : Nat
  favail : Nat
deriving Repr, DecidableEq

/-- lfs_core::Stats as filled by create_lustre_client_mount. -/
structure Stats where
  bsize : Nat
  blocks : Nat
  bfree : Nat
  bavail : Nat
  inodes : Option Inodes
deriving Repr, DecidableEq

/-- lfs_core stats result: Ok stats or the explicit Unreachable marker. -/
inductive StatsResult where
  | ok (s : Stats)
  | unreachable
  | excluded
deriving Repr, DecidableEq

/-- The stats of the synthesized aggregate client record
(create_lustre_client_mount): both loops run, then the record reports the
accumulated figures, or Unreachable when no blocks or no successful OST
were seen. -/
def createLustreClientStats (rcOst rcMdt : Nat → Int)
    (stOst stMdt : Nat → ObdStatfs) : StatsResult :=
  let o := ostAggScan rcOst stOst 0 ⟨0, 0, 0, 4096, 0⟩ LOV_ALL_STRIPES
  let m := mdtAggScan rcMdt stMdt 0 ⟨0, 0⟩ LOV_ALL_STRIPES
  if o.total_blocks > 0 ∧ o.ost_count > 0 then
    .ok { bsize := o.bsize, blocks := o.total_blocks, bfree := o.total_bfree,
          bavail := o.total_bavail,
          inodes := if m.total_files > 0 then
              some ⟨m.total_files, m.total_ffree, m.total_ffree⟩
            else none }
  else .unreachable

/-- The first successful bsize differing from the 4096 default, else 4096:
what the bsize slot actually ends up holding. -/
def firstNonDefaultBsize : List Nat → Nat
  | [] => 4096
  | b :: bs => if b = 4096 then firstNonDefaultBsize bs else b

/-- Modelled from the claim text: the block size reported by the first
valid (successful) object target. -/
def firstValidBsize (rc : Nat → Int) (st : Nat → ObdStatfs) : Option Nat :=
  (clientSuccScan rc 0 LOV_ALL_STRIPES).head?.map (fun i => (st i).os_bsize)

theorem ostAggScan_eq (rc : Nat → Int) (st : Nat → ObdStatfs) :
    ∀ (fuel idx : Nat) (acc : ClientAgg),
      acc.total_blocks < 2^64 → acc.total_bfree < 2^64 → acc.total_bavail < 2^64 →
      ostAggScan rc st idx acc fuel =
        { total_blocks := (acc.total_blocks +
            ((clientSuccScan rc idx fuel).map (fun i => (st i).os_blocks)).sum) % 2^64,
          total_bfree := (acc.total_bfree +
            ((clientSuccScan rc idx fuel).map (fun i => (st i).os_bfree)).sum) % 2^64,
          total_bavail := (acc.total_bavail +
            ((clientSuccScan rc idx fuel).map (fun i => (st i).os_bavail)).sum) % 2^64,
          bsize := if acc.bsize = 4096 then
              firstNonDefaultBsize ((clientSuccScan rc idx fuel).map (fun i => (st i).os_bsize))
            else acc.bsize,
          ost_count := acc.ost_count + (clientSuccScan rc idx fuel).length } := by
  intro fuel
  induction fuel with
  | zero =>
      intro idx acc h1 h2 h3
      simp only [ostAggScan, clientSuccScan, List.map_nil, List.sum_nil,
        Nat.add_zero, List.length_nil]
      cases acc with
      | mk tb bf ba bs oc =>
          simp only at h1 h2 h3
          rw [Nat.mod_eq_of_lt h1, Nat.mod_eq_of_lt h2, Nat.mod_eq_of_lt h3]
          by_cases hbs : bs = 4096
          · simp [hbs, firstNonDefaultBsize]
          · simp [hbs]
  | succ n ih =>
      intro idx acc h1 h2 h3
      by_cases hdev : rc idx = -38
      · simp only [ostAggScan, clientSuccScan, hdev, if_pos, List.map_nil,
          List.sum_nil, Nat.add_zero, List.length_nil]
        cases acc with
        | mk tb bf ba bs oc =>
            simp only at h1 h2 h3
            rw [Nat.mod_eq_of_lt h1, Nat.mod_eq_of_lt h2, Nat.mod_eq_of_lt h3]
            by_cases hbs : bs = 4096
            · simp [hbs, firstNonDefaultBsize]
            · simp [hbs]
      · by_cases hag : rc idx = -11
        · simp only [ostAggScan, clientSuccScan, hdev, hag, if_neg, if_pos,
            not_false_iff]
          exact ih (idx+1) acc h1 h2 h3
        · by_cases hok : rc idx = 0
          · have hm : (0:Nat) < 2^64 := by positivity
            have e38 : ((0:Int) = -38) = False := eq_false (by decide)
            have e11 : ((0:Int) = -11) = False := eq_false (by decide)
            have key := ih (idx+1)
              { total_blocks := (acc.total_blocks + (st idx).os_blocks) % 2^64,
                total_bfree := (acc.total_bfree + (st idx).os_bfree) % 2^64,
                total_bavail := (acc.total_bavail + (st idx).os_bavail) % 2^64,
                bsize := if acc.bsize = 4096 then (st idx).os_bsize else acc.bsize,
                ost_count := acc.ost_count + 1 }
              (Nat.mod_lt _ hm) (Nat.mod_lt _ hm) (Nat.mod_lt _ hm)
            simp only [ostAggScan, clientSuccScan, hok, e38, e11, ite_false,
              ite_true, eq_self_iff_true]
            rw [key]
            dsimp only
            simp only [List.map_cons, List.sum_cons, List.length_cons]
            congr 1
            · rw [Nat.mod_add_mod, Nat.add_assoc]
            · rw [Nat.mod_add_mod, Nat.add_assoc]
            · rw [Nat.mod_add_mod, Nat.add_assoc]
            · by_cases hbs : acc.bsize = 4096
              · by_cases hb0 : (st idx).os_bsize = 4096
                · simp [hbs, hb0, firstNonDefaultBsize]
                · simp [hbs, hb0, firstNonDefaultBsize]
              · simp [hbs]
            · omega
          · simp only [ostAggScan, clientSuccScan, hdev, hag, hok, if_neg,
              not_false_iff]
            exact ih (idx+1) acc h1 h2 h3

theorem mdtAggScan_eq (rc : Nat → Int) (st : Nat → ObdStatfs) :
    ∀ (fuel idx : Nat) (acc : MdtAgg),
      acc.total_files < 2^64 → acc.total_ffree < 2^64 →
      mdtAggScan rc st idx acc fuel =
        { total_files := (acc.total_files +
            ((clientSuccScan rc idx fuel).map (fun i => (st i).os_files)).sum) % 2^64,
          total_ffree := (acc.total_ffree +
            ((clientSuccScan rc idx fuel).map (fun i => (st i).os_ffree)).sum) % 2^64 } := by
  intro fuel
  induction fuel with
  | zero =>
      intro idx acc h1 h2
      simp only [mdtAggScan, clientSuccScan, List.map_nil, List.sum_nil, Nat.add_zero]
      cases acc with
      | mk tf tff =>
          simp only at h1 h2
          rw [Nat.mod_eq_of_lt h1, Nat.mod_eq_of_lt h2]
  | succ n ih =>
      intro idx acc h1 h2
      by_cases hdev : rc idx = -38
      · simp only [mdtAggScan, clientSuccScan, hdev, if_pos, List.map_nil,
          List.sum_nil, Nat.add_zero]
        cases acc with
        | mk tf tff =>
            simp only at h1 h2
            rw [Nat.mod_eq_of_lt h1, Nat.mod_eq_of_lt h2]
      · by_cases hag : rc idx = -11
        · simp only [mdtAggScan, clientSuccScan, hdev, hag, if_neg, if_pos,
            not_false_iff]
          exact ih (idx+1) acc h1 h2
        · by_cases hok : rc idx = 0
          · have hm : (0:Nat) < 2^64 := by positivity
            have e38 : ((0:Int) = -38) = False := eq_false (by decide)
            have e11 : ((0:Int) = -11) = False := eq_false (by decide)
            have key := ih (idx+1)
              { total_files := (acc.total_files + (st idx).os_files) % 2^64,
                total_ffree := (acc.total_ffree + (st idx).os_ffree) % 2^64 }
              (Nat.mod_lt _ hm) (Nat.mod_lt _ hm)
            simp only [mdtAggScan, clientSuccScan, hok, e38, e11, ite_false,
              ite_true, eq_self_iff_true]
            rw [key]
            dsimp only
            simp only [List.map_cons, List.sum_cons]
            congr 1
            · rw [Nat.mod_add_mod, Nat.add_assoc]
            · rw [Nat.mod_add_mod, Nat.add_assoc]
          · simp only [mdtAggScan, clientSuccScan, hdev, hag, hok, if_neg,
              not_false_iff]
            exact ih (idx+1) acc h1 h2

/-- C4 (amended): the aggregate client record's block figures are the u64
sums over the successful object targets; its block size is the first
successful object target's block size that differs from the 4096 default
(4096 when all successful targets report 4096 or none succeeded); the
stats are Unreachable when the summed blocks or the success count is
zero. -/
theorem create_lustre_client_mount_aggregate_figures
    (rcOst rcMdt : Nat → Int) (stOst stMdt : Nat → ObdStatfs) :
    createLustreClientStats rcOst rcMdt stOst stMdt =
      (let succO := clientSuccScan rcOst 0 LOV_ALL_STRIPES
       let succM := clientSuccScan rcMdt 0 LOV_ALL_STRIPES
       let blocks := ((succO.map (fun i => (stOst i).os_blocks)).sum) % 2^64
       let files := ((succM.map (fun i => (stMdt i).os_files)).sum) % 2^64
       let ffree := ((succM.map (fun i => (stMdt i).os_ffree)).sum) % 2^64
       if blocks > 0 ∧ succO.length > 0 then
         .ok { bsize := firstNonDefaultBsize (succO.map (fun i => (stOst i).os_bsize)),
               blocks := blocks,
               bfree := ((succO.map (fun i => (stOst i).os_bfree)).sum) % 2^64,
               bavail := ((succO.map (fun i => (stOst i).os_bavail)).sum) % 2^64,
               inodes := if files > 0 then some ⟨files, ffree, ffree⟩ else none }
       else .unreachable) := by
  have hb : ((0:Nat) < 2^64) := by positivity
  unfold createLustreClientStats
  rw [ostAggScan_eq rcOst stOst LOV_ALL_STRIPES 0 ⟨0, 0, 0, 4096, 0⟩ hb hb hb,
    mdtAggScan_eq rcMdt stMdt LOV_ALL_STRIPES 0 ⟨0, 0⟩ hb hb]
  dsimp only
  simp only [Nat.zero_add, eq_self_iff_true, ite_true, if_pos]

/-- Result codes of a concrete OST enumeration: indices 0 and 1 succeed,
index 2 reports ENODEV. -/
def rcOstC4 : Nat → Int := fun i => if i < 2 then 0 else -38

/-- Statistics of the concrete OST targets: the first valid target reports
the 4096 default block size, the second reports 512. -/
def stOstC4 : Nat → ObdStatfs := fun i =>
  if i = 0 then ⟨10, 5, 4, 0, 0, 4096⟩
  else if i = 1 then ⟨20, 6, 5, 0, 0, 512⟩
  else ⟨0, 0, 0, 0, 0, 0⟩

/-- The MDT enumeration terminates immediately. -/
def rcMdtC4 : Nat → Int := fun _ => -38

def stMdtC4 : Nat → ObdStatfs := fun _ => ⟨0, 0, 0, 0, 0, 0⟩

/-- C4 counterexample: the first valid (successful) object target reports
block size 4096, yet the synthesized aggregate record carries block size
512 taken from the second target, because the code re-assigns the bsize
slot whenever it still holds 4096.  The block-figure sums (30, 11, 9) do
match the claim. -/
theorem create_lustre_client_mount_bsize_counterexample :
    createLustreClientStats rcOstC4 rcMdtC4 stOstC4 stMdtC4 =
      .ok { bsize := 512, blocks := 30, bfree := 11, bavail := 9, inodes := none } ∧
    firstValidBsize rcOstC4 stOstC4 = some 4096 ∧
    (512 : Nat) ≠ 4096 := by
  exact ⟨by decide, by decide, by decide⟩

/-! ## Lustre layout metadata
(cli/src/lib.rs extract_component_info, collect_lustre_layout_info) -/

/-- Whether pat is a prefix of hay (character-wise). -/
def isPrefixOfC : List Char → List Char → Bool
  | [], _ => true
  | _ :: _, [] => false
  | a :: as, b :: bs => a == b && isPrefixOfC as bs

/-- First index at which pat occurs in hay, modelling str::find on the
ASCII patterns used by the code (character indices coincide with Rust's
byte indices on ASCII data). -/
def findSub (hay pat : List Char) : Option Nat :=
  match hay with
  | [] => if pat.isEmpty then some 0 else none
  | _ :: t => if isPrefixOfC pat hay then some 0 else (findSub t pat).map (· + 1)

/-- Rust u32::from_str: an optional leading plus sign, then one or more
decimal digits, rejecting values outside u32 range. -/
def parseU32 (cs : List Char) : Option Nat :=
  let ds := match cs with
    | '+' :: rest => rest
    | _ => cs
  if ds ≠ [] ∧ ds.all (fun c => c.isDigit) then
    let v := ds.foldl (fun acc c => acc * 10 + (c.toNat - 48)) 0
    if v < 2^32 then some v else none
  else none

/-- lib.rs extract_component_info: derive (component type, index) from the
synthesized mount-point annotation. -/
def extract_component_info (mount_point : String) : Option String × Option Nat :=
  let cs := mount_point.toList
  if (findSub cs "[MDT:".toList).isSome then
    (match findSub cs "[MDT:".toList, findSub cs "]".toList with
     | some start, some e =>
         (match parseU32 ((cs.take e).drop (start + 5)) with
          | some i => (some "MDT", some i)
          | none => (some "MDT", none))
     | _, _ => (some "MDT", none))
  else if (findSub cs "[OST:".toList).isSome then
    (match findSub cs "[OST:".toList, findSub cs "]".toList with
     | some start, some e =>
         (match parseU32 ((cs.take e).drop (start + 5)) with
          | some i => (some "OST", some i)
          | none => (some "OST", none))
     | _, _ => (some "OST", none))
  else if ¬ cs.contains '[' then
    (some "CLIENT", none)
  else (none, none)

/-- lib.rs LustreInfo: the per-mount-path cluster metadata record. -/
structure LustreInfo where
  stripe_count : Option Nat
  stripe_size : Option Nat
  lustre_version : Option String
  pool_name : Option String
  component_type : Option String
  component_index : Option Nat
  mirror_count : Option Nat
deriving Repr, DecidableEq

/-- The llapi layout query results for a path: the opened Layout's four
getters, an Err getter modelled as none; the whole query failing is
modelled by the caller passing none for the layout. -/
structure LayoutRes where
  stripe_count : Option Nat
  stripe_size : Option Nat
  pool_name : Option String
  mirror_count : Option Nat
deriving Repr, DecidableEq

/-- Stripe count validation in collect_lustre_layout_info: values outside
1..=1000 are discarded (a failed getter yields nothing). -/
def validatedStripeCount (l : LayoutRes) : Option Nat :=
  match l.stripe_count with
  | some c => if 0 < c ∧ c ≤ 1000 then some c else none
  | none => none

/-- Stripe size validation: values outside 64 KiB..=1 GiB are discarded. -/
def validatedStripeSize (l : LayoutRes) : Option Nat :=
  match l.stripe_size with
  | some sz => if 65536 ≤ sz ∧ sz ≤ 1024*1024*1024 then some sz else none
  | none => none

/-- Pool validation: an empty pool name is discarded. -/
def validatedPoolName (l : LayoutRes) : Option String :=
  match l.pool_name with
  | some p => if p ≠ "" then some p else none
  | none => none

/-- Mirror count validation: zero is discarded. -/
def validatedMirrorCount (l : LayoutRes) : Option Nat :=
  match l.mirror_count with
  | some m => if 0 < m then some m else none
  | none => none

/-- lib.rs collect_lustre_layout_info: component identity from the path
annotation; for client paths (no component annotation, i.e. no bracket in
the path) the layout query results are validated against the sane bounds,
then if both stripe slots are still empty the testing defaults (2 stripes,
1 MiB stripe size) are substituted, the empty pool and single-mirror
defaults fill their empty slots, and the version placeholder is set.
Component paths get only the component identity. -/
def collect_lustre_layout_info (mount_point : String)
    (layout : Option LayoutRes) : LustreInfo :=
  let ci := extract_component_info mount_point
  if mount_point.toList.contains '[' then
    { stripe_count := none, stripe_size := none, lustre_version := none,
      pool_name := none, component_type := ci.1, component_index := ci.2,
      mirror_count := none }
  else
    let sc0 := match layout with
      | some l => validatedStripeCount l
      | none => none
    let ss0 := match layout with
      | some l => validatedStripeSize l
      | none => none
    let pn0 := match layout with
      | some l => validatedPoolName l
      | none => none
    let mc0 := match layout with
      | some l => validatedMirrorCount l
      | none => none
    { stripe_count := if sc0 = none ∧ ss0 = none then some 2 else sc0,
      stripe_size := if sc0 = none ∧ ss0 = none then some 1048576 else ss0,
      lustre_version := some "2.15.x",
      pool_name := if pn0 = none then some "" else pn0,
      component_type := ci.1,
      component_index := ci.2,
      mirror_count := if mc0 = none then some 1 else mc0 }

/-- C5 (amended): the stored metadata never holds a stripe count outside
1..=1000 nor a stripe size outside 64 KiB..=1 GiB, and an in-range value
returned by the layout query is kept; but when both stripe values are
discarded (or missing), the in-range testing defaults 2 and 1 MiB are
substituted and reported; a discarded stripe count stays unreported only
when the stripe size retained a valid value. -/
theorem collect_lustre_layout_info_stripe_bounds (mp : String) (layout : Option LayoutRes) :
    (∀ c, (collect_lustre_layout_info mp layout).stripe_count = some c → 1 ≤ c ∧ c ≤ 1000) ∧
    (∀ s, (collect_lustre_layout_info mp layout).stripe_size = some s →
        65536 ≤ s ∧ s ≤ 1073741824) ∧
    (∀ l c, layout = some l → l.stripe_count = some c → 1 ≤ c → c ≤ 1000 →
        mp.toList.contains '[' = false →
        (collect_lustre_layout_info mp layout).stripe_count = some c) ∧
    (∀ l s, layout = some l → mp.toList.contains '[' = false →
        (∀ c, l.stripe_count = some c → ¬ (1 ≤ c ∧ c ≤ 1000)) →
        l.stripe_size = some s → 65536 ≤ s → s ≤ 1073741824 →
        (collect_lustre_layout_info mp layout).stripe_count = none) := by
  cases hbr : mp.toList.contains '[' with
  | true =>
    have hmem : '[' ∈ mp.data := by simpa using hbr
    refine ⟨?_, ?_, ?_, ?_⟩
    · intro c hc
      simp [collect_lustre_layout_info, hmem] at hc
    · intro s hs
      simp [collect_lustre_layout_info, hmem] at hs
    · intro l c _ _ _ _ hno
      exact absurd hno (by simp)
    · intro l s _ hno
      exact absurd hno (by simp)
  | false =>
    have hmem : '[' ∉ mp.data := by simpa using hbr
    refine ⟨?_, ?_, ?_, ?_⟩
    · intro c hc
      cases layout with
      | none =>
          simp [collect_lustre_layout_info, hmem] at hc
          omega
      | some l =>
          simp [collect_lustre_layout_info, hmem] at hc
          by_cases hd : validatedStripeCount l = none ∧ validatedStripeSize l = none
          · rw [if_pos hd] at hc
            simp at hc
            omega
          · rw [if_neg hd] at hc
            unfold validatedStripeCount at hc
            rcases hsc : l.stripe_count with _ | c0
            · rw [hsc] at hc
              simp at hc
            · rw [hsc] at hc
              dsimp only at hc
              by_cases hv : 0 < c0 ∧ c0 ≤ 1000
              · rw [if_pos hv] at hc
                simp at hc
                omega
              · rw [if_neg hv] at hc
                simp at hc
    · intro s hs
      cases layout with
      | none =>
          simp [collect_lustre_layout_info, hmem] at hs
          omega
      | some l =>
          simp [collect_lustre_layout_info, hmem] at hs
          by_cases hd : validatedStripeCount l = none ∧ validatedStripeSize l = none
          · rw [if_pos hd] at hs
            simp at hs
            omega
          · rw [if_neg hd] at hs
            unfold validatedStripeSize at hs
            rcases hss : l.stripe_size with _ | s0
            · rw [hss] at hs
              simp at hs
            · rw [hss] at hs
              dsimp only at hs
              by_cases hv : 65536 ≤ s0 ∧ s0 ≤ 1024*1024*1024
              · rw [if_pos hv] at hs
                simp at hs
                omega
              · rw [if_neg hv] at hs
                simp at hs
    · intro l c hl hc h1 h2 _
      cases hl
      have hval : validatedStripeCount l = some c := by
        unfold validatedStripeCount
        rw [hc]
        dsimp only
        rw [if_pos ⟨h1, h2⟩]
      have hd : ¬ (validatedStripeCount l = none ∧ validatedStripeSize l = none) := by
        rw [hval]; simp
      simp [collect_lustre_layout_info, hmem]
      rw [if_neg hd, hval]
    · intro l s hl _ hbad hs h1 h2
      cases hl
      have hvalc : validatedStripeCount l = none := by
        unfold validatedStripeCount
        rcases hsc : l.stripe_count with _ | c0
        · rfl
        · have := hbad c0 hsc
          dsimp only
          rw [if_neg (by omega)]
      have hvals : validatedStripeSize l = some s := by
        unfold validatedStripeSize
        rw [hs]
        dsimp only
        rw [if_pos ⟨h1, by omega⟩]
      have hd : ¬ (validatedStripeCount l = none ∧ validatedStripeSize l = none) := by
        rw [hvals]; simp
      simp [collect_lustre_layout_info, hmem]
      rw [if_neg hd]
      exact hvalc

theorem collect_lustre_layout_info_stripe_bounds_witness :
    (collect_lustre_layout_info "/mnt/lustre"
        (some ⟨some 4, some 131072, none, none⟩)).stripe_count = some 4 ∧
    (1 ≤ 4 ∧ 4 ≤ 1000) :=
  ⟨(collect_lustre_layout_info_stripe_bounds "/mnt/lustre"
        (some ⟨some 4, some 131072, none, none⟩)).2.2.1
      ⟨some 4, some 131072, none, none⟩ 4 rfl rfl (by decide) (by decide) (by decide),
   by decide, by decide⟩

/-- C5 counterexample: for the aggregate's real path, a layout reply whose
stripe count (5000) and stripe size (1024) are both out of range has both
values discarded, after which the code substitutes and reports the mock
defaults stripe count 2 and stripe size 1 MiB - the discarded values are
replaced by reported values, contradicting the claim that a discarded
value is not replaced. -/
theorem collect_lustre_layout_info_counterexample :
    (collect_lustre_layout_info "/mnt/lustre"
        (some ⟨some 5000, some 1024, none, none⟩)).stripe_count = some 2 ∧
    (collect_lustre_layout_info "/mnt/lustre"
        (some ⟨some 5000, some 1024, none, none⟩)).stripe_size = some 1048576 ∧
    ¬ (5000 ≤ 1000) ∧ ¬ (65536 ≤ 1024) := by
  exact ⟨by decide, by decide, by decide, by decide⟩

/-! ## Mount records, deduplication and representatives
(cli/src/lib.rs check_duplicate, choose_representative_mount) -/

/-- The slice of lfs_core::Mount (with its MountInfo) that the
deduplication, filtering and ordering stages read.  remote records the
result of the external lfs-core MountInfo::is_remote() predicate, disk
whether the disk field is Some, and stats the Result of the statfs call
(excluded standing for a non-Unreachable error kind). -/
structure MountR where
  fs : String
  fs_type : String
  mount_point : String
  dev_major : Nat
  dev_minor : Nat
  bound : Bool
  remote : Bool
  disk : Bool
  stats : StatsResult
deriving Repr, DecidableEq

/-- The grouping key string built by check_duplicate: for clustered
(lustre) rows the string lustre_fs_mountpoint, otherwise major:minor. -/
def groupKey (m : MountR) : String :=
  if m.fs_type = "lustre" then "lustre_" ++ m.fs ++ "_" ++ m.mount_point
  else Nat.repr m.dev_major ++ ":" ++ Nat.repr m.dev_minor

/-- The path comparator in choose_representative_mount: the root path
sorts first, then shorter byte length, ties broken lexicographically. -/
def mountPathCmp (a b : String) : Ordering :=
  if a = "/" then .lt
  else if b = "/" then .gt
  else (natCmp a.utf8ByteSize b.utf8ByteSize).then (strCmp a b)

/-- lib.rs choose_representative_mount: prefer the clustered aggregate
(fs filesystem_summary) if present, otherwise sort by the path comparator
and take the first element.  The source unwraps on a non-empty group; the
empty group yields none. -/
def choose_representative_mount (mounts : List MountR) : Option MountR :=
  match mounts.find? (fun m => m.fs == "filesystem_summary") with
  | some m => some m
  | none =>
      (sortByRust (fun a b => mountPathCmp a.mount_point b.mount_point) mounts).head?

/-- lib.rs check_duplicate.  The Rust code buckets the rows in a HashMap
keyed by groupKey and then iterates the map; the map's iteration order is
arbitrary, so it is a parameter ks here (the list of distinct keys in the
order the map yields them); each bucket keeps the input order of its rows
(filter preserves order, as does Vec::push).  Singleton groups pass
through; larger groups are replaced by their representative. -/
def check_duplicate (ks : List String) (ms : List MountR) : List MountR :=
  ks.flatMap (fun k =>
    let group := ms.filter (fun m => groupKey m == k)
    if group.length = 1 then group
    else match choose_representative_mount group with
      | some r => [r]
      | none => [])

/-- A valid iteration order for the HashMap buckets: each distinct key
exactly once. -/
def validKeyOrder (ks : List String) (ms : List MountR) : Prop :=
  ks.Nodup ∧ ∀ k, k ∈ ks ↔ ∃ m ∈ ms, groupKey m = k

/-- The claim's representative-path property: the root path if the group
contains it, otherwise a shortest path of the group, ties broken
lexicographically. -/
def isRootOrShortestPath (paths : List String) (p : String) : Prop :=
  if "/" ∈ paths then p = "/"
  else p ∈ paths ∧ ∀ q ∈ paths,
    p.utf8ByteSize < q.utf8ByteSize ∨
    (p.utf8ByteSize = q.utf8ByteSize ∧ strCmp p q ≠ .gt)

theorem charsCmp_self (a : List Char) : charsCmp a a = .eq := by
  induction a with
  | nil => rfl
  | cons x xs ih => simp [charsCmp, ih]

theorem strCmp_self (a : String) : strCmp a a = .eq := charsCmp_self a.toList

theorem then_eq_lt {o1 o2 : Ordering} :
    o1.then o2 = .lt ↔ o1 = .lt ∨ (o1 = .eq ∧ o2 = .lt) := by
  cases o1 <;> simp [Ordering.then]

theorem then_eq_gt {o1 o2 : Ordering} :
    o1.then o2 = .gt ↔ o1 = .gt ∨ (o1 = .eq ∧ o2 = .gt) := by
  cases o1 <;> simp [Ordering.then]

theorem natCmp_eq_lt {a b : Nat} : natCmp a b = .lt ↔ a < b := by
  unfold natCmp
  by_cases h1 : a < b
  · simp [h1]
  · by_cases h2 : b < a <;> simp [h1, h2]

theorem natCmp_eq_gt {a b : Nat} : natCmp a b = .gt ↔ b < a := by
  unfold natCmp
  by_cases h1 : a < b
  · have : ¬ b < a := lt_asymm h1
    simp [h1, this]
  · by_cases h2 : b < a <;> simp [h1, h2]

theorem natCmp_eq_eq {a b : Nat} : natCmp a b = .eq ↔ a = b := by
  unfold natCmp
  by_cases h1 : a < b
  · simp [h1]; omega
  · by_cases h2 : b < a <;> simp [h1, h2] <;> omega

theorem strCmp_notGt_trans {a b c : String}
    (h1 : strCmp a b ≠ .gt) (h2 : strCmp b c ≠ .gt) : strCmp a c ≠ .gt := by
  cases hab : strCmp a b with
  | gt => exact absurd hab h1
  | eq => rw [strCmp_eq_eq hab]; exact h2
  | lt =>
      cases hbc : strCmp b c with
      | gt => exact absurd hbc h2
      | eq => rw [← strCmp_eq_eq hbc]; simp [hab]
      | lt => simp [strCmp_lt_trans hab hbc]

theorem lenLexLe_trans {a b c : String}
    (h1 : a.utf8ByteSize < b.utf8ByteSize ∨
      (a.utf8ByteSize = b.utf8ByteSize ∧ strCmp a b ≠ .gt))
    (h2 : b.utf8ByteSize < c.utf8ByteSize ∨
      (b.utf8ByteSize = c.utf8ByteSize ∧ strCmp b c ≠ .gt)) :
    a.utf8ByteSize < c.utf8ByteSize ∨
      (a.utf8ByteSize = c.utf8ByteSize ∧ strCmp a c ≠ .gt) := by
  rcases h1 with h1 | ⟨e1, s1⟩
  · rcases h2 with h2 | ⟨e2, s2⟩
    · left; omega
    · left; omega
  · rcases h2 with h2 | ⟨e2, s2⟩
    · left; omega
    · right
      exact ⟨by omega, strCmp_notGt_trans s1 s2⟩

/-- Invariant carried through the representative scan: the candidate is a
processed row whose path is the root-or-shortest path of the processed
rows. -/
def repInvariant (processed : List MountR) (cand : Option MountR) : Prop :=
  match cand with
  | some r => r ∈ processed ∧
      isRootOrShortestPath (processed.map MountR.mount_point) r.mount_point
  | none => processed = []

theorem repInvariant_step (x : MountR) (seen : List MountR) (cand : Option MountR)
    (h : repInvariant seen cand) :
    repInvariant (x :: seen)
      (if seen.all (fun z => mountPathCmp x.mount_point z.mount_point = .lt)
        then some x else cand) := by
  by_cases hc : seen.all (fun z => mountPathCmp x.mount_point z.mount_point = .lt)
  · rw [if_pos hc]
    rw [List.all_eq_true] at hc
    refine ⟨List.mem_cons_self x seen, ?_⟩
    by_cases hroot : x.mount_point = "/"
    · have hm : "/" ∈ (x :: seen).map MountR.mount_point := by
        simp only [List.map_cons, List.mem_cons]
        exact Or.inl hroot.symm
      unfold isRootOrShortestPath
      rw [if_pos hm]
      exact hroot
    · have hnoseen : ∀ z ∈ seen, z.mount_point ≠ "/" := by
        intro z hz hzr
        have := hc z hz
        simp only [decide_eq_true_eq] at this
        unfold mountPathCmp at this
        rw [if_neg hroot, if_pos hzr] at this
        cases this
      have hm : "/" ∉ (x :: seen).map MountR.mount_point := by
        simp only [List.map_cons, List.mem_cons, List.mem_map, not_or]
        refine ⟨fun h0 => hroot h0.symm, ?_⟩
        rintro ⟨z, hz, hzr⟩
        exact hnoseen z hz hzr
      unfold isRootOrShortestPath
      rw [if_neg hm]
      refine ⟨by simp, ?_⟩
      intro q hq
      rcases List.mem_map.mp hq with ⟨z, hz, rfl⟩
      rcases List.mem_cons.mp hz with rfl | hzs
      · right
        exact ⟨rfl, by simp [strCmp_self]⟩
      · have hlt := hc z hzs
        simp only [decide_eq_true_eq] at hlt
        unfold mountPathCmp at hlt
        rw [if_neg hroot, if_neg (hnoseen z hzs)] at hlt
        rcases then_eq_lt.mp hlt with hn | ⟨hn, hs⟩
        · left
          exact natCmp_eq_lt.mp hn
        · right
          refine ⟨natCmp_eq_eq.mp hn, ?_⟩
          rw [hs]
          simp
  · rw [if_neg hc]
    have hseen_ne : seen ≠ [] := by
      intro h0
      rw [h0] at hc
      simp at hc
    cases cand with
    | none => exact absurd h hseen_ne
    | some r =>
        obtain ⟨hrmem, hrbest⟩ := h
        refine ⟨List.mem_cons_of_mem x hrmem, ?_⟩
        rw [List.all_eq_true] at hc
        push_neg at hc
        obtain ⟨z, hz, hzlt0⟩ := hc
        have hzlt : ¬ (mountPathCmp x.mount_point z.mount_point = .lt) := by
          intro hh
          exact hzlt0 (by simp [hh])
        by_cases hroot_seen : "/" ∈ seen.map MountR.mount_point
        · have hm : "/" ∈ (x :: seen).map MountR.mount_point := by
            simp only [List.map_cons, List.mem_cons]
            exact Or.inr hroot_seen
          unfold isRootOrShortestPath at hrbest ⊢
          rw [if_pos hroot_seen] at hrbest
          rw [if_pos hm]
          exact hrbest
        · have hxroot : x.mount_point ≠ "/" := by
            intro h0
            apply hzlt
            unfold mountPathCmp
            rw [if_pos h0]
          have hznr : z.mount_point ≠ "/" := by
            intro h0
            exact hroot_seen (List.mem_map.mpr ⟨z, hz, h0⟩)
          have hm : "/" ∉ (x :: seen).map MountR.mount_point := by
            simp only [List.map_cons, List.mem_cons, not_or]
            exact ⟨fun h0 => hxroot h0.symm, hroot_seen⟩
          unfold isRootOrShortestPath at hrbest ⊢
          rw [if_neg hroot_seen] at hrbest
          rw [if_neg hm]
          obtain ⟨hrp, hrmin⟩ := hrbest
          refine ⟨List.mem_cons_of_mem _ hrp, ?_⟩
          intro q hq
          rcases List.mem_cons.mp hq with rfl | hqs
          · -- q is the new row's path; r beats z and z beats x
            have hzx : z.mount_point.utf8ByteSize < x.mount_point.utf8ByteSize ∨
                (z.mount_point.utf8ByteSize = x.mount_point.utf8ByteSize ∧
                  strCmp z.mount_point x.mount_point ≠ .gt) := by
              unfold mountPathCmp at hzlt
              rw [if_neg hxroot, if_neg hznr] at hzlt
              cases hn : natCmp x.mount_point.utf8ByteSize z.mount_point.utf8ByteSize with
              | lt =>
                  exact absurd (then_eq_lt.mpr (Or.inl hn)) hzlt
              | eq =>
                  have he := natCmp_eq_eq.mp hn
                  cases hs : strCmp x.mount_point z.mount_point with
                  | lt => exact absurd (then_eq_lt.mpr (Or.inr ⟨hn, hs⟩)) hzlt
                  | eq =>
                      right
                      refine ⟨he.symm, ?_⟩
                      rw [strCmp_eq_eq hs]
                      simp [strCmp_self]
                  | gt =>
                      right
                      refine ⟨he.symm, ?_⟩
                      rw [strCmp_swap, hs]
                      simp [Ordering.swap]
              | gt =>
                  left
                  exact natCmp_eq_gt.mp hn
            have hrz := hrmin z.mount_point (List.mem_map.mpr ⟨z, hz, rfl⟩)
            exact lenLexLe_trans hrz hzx
          · exact hrmin q hqs

theorem bestCandAux_repInvariant :
    ∀ (xs seen : List MountR) (cand : Option MountR),
      repInvariant seen cand →
      repInvariant (xs.reverse ++ seen)
        (bestCandAux (fun a b => mountPathCmp a.mount_point b.mount_point)
          seen cand xs) := by
  intro xs
  induction xs with
  | nil => intro seen cand h; simpa using h
  | cons x xs ih =>
      intro seen cand h
      have hstep := repInvariant_step x seen cand h
      have hrec := ih (x :: seen) _ hstep
      simp only [bestCandAux]
      simpa [List.reverse_cons, List.append_assoc] using hrec

theorem isRootOrShortestPath_perm {ps qs : List String} (h : List.Perm ps qs)
    (p : String) (hp : isRootOrShortestPath ps p) : isRootOrShortestPath qs p := by
  unfold isRootOrShortestPath at hp ⊢
  by_cases hr : "/" ∈ ps
  · rw [if_pos hr] at hp
    rw [if_pos (h.mem_iff.mp hr)]
    exact hp
  · rw [if_neg hr] at hp
    rw [if_neg (fun hq => hr (h.mem_iff.mpr hq))]
    exact ⟨h.mem_iff.mp hp.1, fun q hq => hp.2 q (h.mem_iff.mpr hq)⟩

theorem isRootOrShortestPath_singleton (p : String) : isRootOrShortestPath [p] p := by
  unfold isRootOrShortestPath
  by_cases h : "/" ∈ [p]
  · rw [if_pos h]
    simp at h
    exact h.symm
  · rw [if_neg h]
    refine ⟨by simp, ?_⟩
    intro q hq
    simp at hq
    subst hq
    right
    exact ⟨rfl, by simp [strCmp_self]⟩

theorem choose_representative_mount_mem {g : List MountR} {r : MountR}
    (h : choose_representative_mount g = some r) : r ∈ g := by
  unfold choose_representative_mount at h
  cases hf : g.find? (fun m => m.fs == "filesystem_summary") with
  | some m =>
      rw [hf] at h
      cases h
      exact List.mem_of_find?_eq_some hf
  | none =>
      rw [hf] at h
      have hm : r ∈ sortByRust (fun a b => mountPathCmp a.mount_point b.mount_point) g := by
        cases hl : sortByRust (fun a b => mountPathCmp a.mount_point b.mount_point) g with
        | nil => rw [hl] at h; cases h
        | cons y ys =>
            rw [hl] at h
            cases h
            exact List.mem_cons_self _ _
      exact (sortByRust_perm _ g).mem_iff.mp hm

theorem choose_representative_mount_best (g : List MountR) (hg : g ≠ [])
    (hns : ∀ m ∈ g, m.fs ≠ "filesystem_summary") :
    ∃ r, choose_representative_mount g = some r ∧ r ∈ g ∧
      isRootOrShortestPath (g.map MountR.mount_point) r.mount_point := by
  have hfind : g.find? (fun m => m.fs == "filesystem_summary") = none := by
    rw [List.find?_eq_none]
    intro m hm
    simp [hns m hm]
  unfold choose_representative_mount
  rw [hfind, head?_sortByRust]
  have hinv := bestCandAux_repInvariant g [] none rfl
  simp only [List.append_nil] at hinv
  cases hres : bestCandAux (fun a b => mountPathCmp a.mount_point b.mount_point)
      [] none g with
  | none =>
      rw [hres] at hinv
      unfold repInvariant at hinv
      simp at hinv
      exact absurd hinv hg
  | some r =>
      rw [hres] at hinv
      unfold repInvariant at hinv
      obtain ⟨hmem, hbest⟩ := hinv
      refine ⟨r, rfl, List.mem_reverse.mp hmem, ?_⟩
      exact isRootOrShortestPath_perm
        (List.Perm.map MountR.mount_point (List.reverse_perm g)) r.mount_point hbest

/-- The per-key bucket processing step of check_duplicate. -/
def processKey (ms : List MountR) (k : String) : List MountR :=
  let group := ms.filter (fun m => groupKey m == k)
  if group.length = 1 then group
  else match choose_representative_mount group with
    | some r => [r]
    | none => []

theorem check_duplicate_eq_flatMap (ks : List String) (ms : List MountR) :
    check_duplicate ks ms = ks.flatMap (processKey ms) := rfl

theorem processKey_key {ms : List MountR} {k : String} {m : MountR}
    (h : m ∈ processKey ms k) : groupKey m = k := by
  unfold processKey at h
  by_cases hl : (ms.filter (fun m => groupKey m == k)).length = 1
  · rw [if_pos hl] at h
    have := List.of_mem_filter h
    simpa using this
  · rw [if_neg hl] at h
    cases hc : choose_representative_mount (ms.filter (fun m => groupKey m == k)) with
    | none => rw [hc] at h; cases h
    | some r =>
        rw [hc] at h
        have hr := choose_representative_mount_mem hc
        have := List.of_mem_filter hr
        rcases List.mem_singleton.mp h with rfl
        simpa using this

theorem processKey_sub {ms : List MountR} {k : String} {m : MountR}
    (h : m ∈ processKey ms k) : m ∈ ms := by
  unfold processKey at h
  by_cases hl : (ms.filter (fun m => groupKey m == k)).length = 1
  · rw [if_pos hl] at h
    exact List.mem_of_mem_filter h
  · rw [if_neg hl] at h
    cases hc : choose_representative_mount (ms.filter (fun m => groupKey m == k)) with
    | none => rw [hc] at h; cases h
    | some r =>
        rw [hc] at h
        rcases List.mem_singleton.mp h with rfl
        exact List.mem_of_mem_filter (choose_representative_mount_mem hc)

theorem singleton_of_mem_length_one {l : List α} {m : α}
    (hm : m ∈ l) (hl : l.length = 1) : l = [m] := by
  cases l with
  | nil => cases hm
  | cons x xs =>
      cases xs with
      | nil =>
          rcases List.mem_singleton.mp hm with rfl
          rfl
      | cons y ys => simp at hl

/-- C2: a clustered-storage (lustre) row whose grouping key is unique in
the input - as holds for every component row and the aggregate produced by
one discovery pass, whose (fs, mount point) identities are distinct - is
never discarded by deduplication: it appears unchanged in the output, so
any two distinct such rows both survive and are never collapsed into one
representative; moreover deduplication invents no rows. -/
theorem check_duplicate_keeps_lustre_rows
    (ks : List String) (ms : List MountR)
    (hcov : ∀ m ∈ ms, groupKey m ∈ ks)
    (huniq : ∀ m ∈ ms, m.fs_type = "lustre" →
      ms.countP (fun m' => groupKey m' == groupKey m) = 1) :
    (∀ m ∈ ms, m.fs_type = "lustre" → m ∈ check_duplicate ks ms) ∧
    (∀ m ∈ check_duplicate ks ms, m ∈ ms) := by
  constructor
  · intro m hm hl
    rw [check_duplicate_eq_flatMap]
    refine List.mem_flatMap.mpr ⟨groupKey m, hcov m hm, ?_⟩
    have hcount := huniq m hm hl
    have hmf : m ∈ ms.filter (fun m' => groupKey m' == groupKey m) :=
      List.mem_filter.mpr ⟨hm, by simp⟩
    have hlen : (ms.filter (fun m' => groupKey m' == groupKey m)).length = 1 := by
      rw [← hcount]
      exact (List.countP_eq_length_filter _ _).symm
    have hg : ms.filter (fun m' => groupKey m' == groupKey m) = [m] :=
      singleton_of_mem_length_one hmf hlen
    unfold processKey
    rw [hg]
    simp
  · intro m hm
    rw [check_duplicate_eq_flatMap] at hm
    rcases List.mem_flatMap.mp hm with ⟨k, _, hmk⟩
    exact processKey_sub hmk

/-- Two distinct lustre component rows used by the C2 witness. -/
def lusA : MountR :=
  { fs := "lustre-MDT0000_UUID", fs_type := "lustre",
    mount_point := "/mnt/lustre[MDT:0]", dev_major := 1, dev_minor := 0,
    bound := false, remote := true, disk := false,
    stats := .ok ⟨4096, 10, 5, 4, none⟩ }

def lusB : MountR :=
  { fs := "lustre-OST0001_UUID", fs_type := "lustre",
    mount_point := "/mnt/lustre[OST:1]", dev_major := 2, dev_minor := 1,
    bound := false, remote := true, disk := false,
    stats := .ok ⟨4096, 20, 6, 5, none⟩ }

theorem check_duplicate_keeps_lustre_rows_witness :
    lusA ∈ check_duplicate [groupKey lusA, groupKey lusB] [lusA, lusB] ∧
    lusB ∈ check_duplicate [groupKey lusA, groupKey lusB] [lusA, lusB] :=
  ⟨(check_duplicate_keeps_lustre_rows [groupKey lusA, groupKey lusB] [lusA, lusB]
      (by decide) (by decide)).1 lusA (by decide) (by decide),
   (check_duplicate_keeps_lustre_rows [groupKey lusA, groupKey lusB] [lusA, lusB]
      (by decide) (by decide)).1 lusB (by decide) (by decide)⟩

theorem flatMap_filter_eq (ks : List String) (ms : List MountR) (k : String)
    (hks : ks.Nodup) (hkin : k ∈ ks) :
    (ks.flatMap (processKey ms)).filter (fun m => groupKey m == k) =
      processKey ms k := by
  induction ks with
  | nil => cases hkin
  | cons k' ks' ih =>
      rw [List.flatMap_cons, List.filter_append]
      rcases List.mem_cons.mp hkin with rfl | hk'
      · have h1 : (processKey ms k).filter (fun m => groupKey m == k) =
            processKey ms k := by
          rw [List.filter_eq_self]
          intro m hm
          simp [processKey_key hm]
        have h2 : (ks'.flatMap (processKey ms)).filter
            (fun m => groupKey m == k) = [] := by
          rw [List.filter_eq_nil_iff]
          intro m hm
          rcases List.mem_flatMap.mp hm with ⟨k2, hk2, hmk2⟩
          have hkey := processKey_key hmk2
          have hk2ne : k2 ≠ k := by
            intro h0
            subst h0
            exact (List.nodup_cons.mp hks).1 hk2
          simp [hkey, hk2ne]
        rw [h1, h2, List.append_nil]
      · have hne : k' ≠ k := by
          intro h0
          subst h0
          exact (List.nodup_cons.mp hks).1 hk'
        have h1 : (processKey ms k').filter (fun m => groupKey m == k) = [] := by
          rw [List.filter_eq_nil_iff]
          intro m hm
          simp [processKey_key hm, hne]
        rw [h1, List.nil_append]
        exact ih (List.nodup_cons.mp hks).2 hk'

/-- C3: for a group of rows sharing one grouping key - for ordinary
(non-lustre) rows, the device major:minor key - containing no clustered
aggregate name, deduplication emits exactly one representative row for
that key; the representative comes from the group and its mount path is
the root path when the group contains it, otherwise a shortest path of
the group with ties broken lexicographically. -/
theorem check_duplicate_ordinary_group_representative
    (ks : List String) (ms : List MountR) (k : String)
    (hks : ks.Nodup)
    (hcov : ∀ m ∈ ms, groupKey m ∈ ks)
    (hne : ms.filter (fun m => groupKey m == k) ≠ [])
    (hns : ∀ m ∈ ms, groupKey m = k → m.fs ≠ "filesystem_summary") :
    ∃ r, (check_duplicate ks ms).filter (fun m => groupKey m == k) = [r] ∧
      r ∈ ms.filter (fun m => groupKey m == k) ∧
      isRootOrShortestPath
        ((ms.filter (fun m => groupKey m == k)).map MountR.mount_point)
        r.mount_point := by
  have hkin : k ∈ ks := by
    cases hgl : ms.filter (fun m => groupKey m == k) with
    | nil => exact absurd hgl hne
    | cons m t =>
        have hm : m ∈ ms.filter (fun m => groupKey m == k) := by
          rw [hgl]; exact List.mem_cons_self m t
        have hk : groupKey m = k := by simpa using (List.mem_filter.mp hm).2
        exact hk ▸ hcov m (List.mem_of_mem_filter hm)
  rw [check_duplicate_eq_flatMap, flatMap_filter_eq ks ms k hks hkin]
  unfold processKey
  by_cases hl : (ms.filter (fun m => groupKey m == k)).length = 1
  · rw [if_pos hl]
    cases hgl : ms.filter (fun m => groupKey m == k) with
    | nil => exact absurd hgl hne
    | cons m t =>
        have ht : t = [] := by
          rw [hgl] at hl
          simpa using hl
        subst ht
        refine ⟨m, rfl, List.mem_cons_self m [], ?_⟩
        simpa using isRootOrShortestPath_singleton m.mount_point
  · rw [if_neg hl]
    have hns' : ∀ m ∈ ms.filter (fun m => groupKey m == k),
        m.fs ≠ "filesystem_summary" := by
      intro m hm
      exact hns m (List.mem_of_mem_filter hm)
        (by simpa using (List.mem_filter.mp hm).2)
    obtain ⟨r, hr, hrm, hrb⟩ :=
      choose_representative_mount_best (ms.filter (fun m => groupKey m == k)) hne hns'
    rw [hr]
    exact ⟨r, rfl, hrm, hrb⟩

/-- Two ordinary rows on one device used by the C3 witness. -/
def ordA : MountR :=
  { fs := "/dev/sda1", fs_type := "ext4", mount_point := "/data/a",
    dev_major := 8, dev_minor := 1, bound := false, remote := false,
    disk := true, stats := .ok ⟨4096, 100, 50, 40, none⟩ }

def ordB : MountR :=
  { fs := "/dev/sda1", fs_type := "ext4", mount_point := "/d",
    dev_major := 8, dev_minor := 1, bound := false, remote := false,
    disk := true, stats := .ok ⟨4096, 100, 50, 40, none⟩ }

theorem check_duplicate_ordinary_group_representative_witness :
    ∃ r, (check_duplicate [groupKey ordA] [ordA, ordB]).filter
        (fun m => groupKey m == groupKey ordA) = [r] ∧
      r ∈ [ordA, ordB].filter (fun m => groupKey m == groupKey ordA) ∧
      isRootOrShortestPath
        (([ordA, ordB].filter (fun m => groupKey m == groupKey ordA)).map
          MountR.mount_point) r.mount_point :=
  check_duplicate_ordinary_group_representative [groupKey ordA] [ordA, ordB]
    (groupKey ordA) (by decide) (by decide) (by decide) (by decide)

/-! ## Lustre topology ordering
(cli/src/lib.rs parse_lustre_component and the sort in run) -/

/-- lib.rs parse_lustre_component: names like lustre-MDT0000_UUID parse to
(family, index): the text between the first dash and the following first
underscore must be at least 7 characters; its first 3 characters are the
family tag and the rest must parse as a u32. -/
def parse_lustre_component (name : String) : Option (String × Nat) :=
  let cs := name.toList
  match cs.findIdx? (fun c => c == '-') with
  | none => none
  | some dash_pos =>
      let after_dash := cs.drop (dash_pos + 1)
      match after_dash.findIdx? (fun c => c == '_') with
      | none => none
      | some underscore_pos =>
          let component_part := after_dash.take underscore_pos
          if component_part.length ≥ 7 then
            match parseU32 (component_part.drop 3) with
            | some n => some (String.mk (component_part.take 3), n)
            | none => none
          else none

/-- The comparator of the clustered-only view (lib.rs run, applied before
rendering and re-applied after deduplication): the aggregate
(filesystem_summary) sorts last, MDT components before OST components,
same-family components by index, everything else by name. -/
def lustreRowCmp (a_name b_name : String) : Ordering :=
  if a_name = "filesystem_summary" then
    (if b_name = "filesystem_summary" then strCmp a_name b_name else .gt)
  else if b_name = "filesystem_summary" then .lt
  else match parse_lustre_component a_name, parse_lustre_component b_name with
    | some (a_type, a_idx), some (b_type, b_idx) =>
        if a_type = "MDT" ∧ b_type = "OST" then .lt
        else if a_type = "OST" ∧ b_type = "MDT" then .gt
        else natCmp a_idx b_idx
    | _, _ => strCmp a_name b_name

/-- The displayed ordering of the clustered-only view: mounts.sort_by with
the comparator above. -/
def lustreSort (ms : List MountR) : List MountR :=
  sortByRust (fun a b => lustreRowCmp a.fs b.fs) ms

/-- Spec-side rank triple for a row name: aggregate sorts in the last
band, then MDT before OST, then the numeric index. -/
def lustreNameKey (name : String) : Nat × Nat × Nat :=
  if name = "filesystem_summary" then (1, 0, 0)
  else match parse_lustre_component name with
    | some (t, i) => (0, if t = "MDT" then 0 else 1, i)
    | none => (0, 2, 0)

/-- Lexicographic comparison of rank triples. -/
def triCmp (x y : Nat × Nat × Nat) : Ordering :=
  (natCmp x.1 y.1).then ((natCmp x.2.1 y.2.1).then (natCmp x.2.2 y.2.2))

theorem then_ne_gt {o1 o2 : Ordering} :
    o1.then o2 ≠ .gt ↔ o1 ≠ .gt ∧ (o1 = .eq → o2 ≠ .gt) := by
  cases o1 <;> simp [Ordering.then]

theorem then_swap (o1 o2 : Ordering) :
    (o1.then o2).swap = o1.swap.then o2.swap := by
  cases o1 <;> cases o2 <;> rfl

theorem triCmp_swap (x y : Nat × Nat × Nat) : triCmp y x = (triCmp x y).swap := by
  unfold triCmp
  rw [natCmp_swap x.1 y.1, natCmp_swap x.2.1 y.2.1, natCmp_swap x.2.2 y.2.2,
    then_swap, then_swap]

theorem natCmp_notGt_trans {a b c : Nat}
    (h1 : natCmp a b ≠ .gt) (h2 : natCmp b c ≠ .gt) : natCmp a c ≠ .gt := by
  intro h
  rw [natCmp_eq_gt] at h
  have hab : ¬ b < a := fun hh => h1 (natCmp_eq_gt.mpr hh)
  have hbc : ¬ c < b := fun hh => h2 (natCmp_eq_gt.mpr hh)
  omega

theorem triCmp_notGt_trans {x y z : Nat × Nat × Nat}
    (h1 : triCmp x y ≠ .gt) (h2 : triCmp y z ≠ .gt) : triCmp x z ≠ .gt := by
  unfold triCmp at h1 h2 ⊢
  rw [then_ne_gt] at h1 h2 ⊢
  obtain ⟨h1a, h1b⟩ := h1
  obtain ⟨h2a, h2b⟩ := h2
  refine ⟨natCmp_notGt_trans h1a h2a, ?_⟩
  intro he
  have hxz := natCmp_eq_eq.mp he
  have hxy : x.1 = y.1 ∧ y.1 = z.1 := by
    have hx : ¬ y.1 < x.1 := fun hh => h1a (natCmp_eq_gt.mpr hh)
    have hy : ¬ z.1 < y.1 := fun hh => h2a (natCmp_eq_gt.mpr hh)
    omega
  have h1b' := h1b (natCmp_eq_eq.mpr hxy.1)
  have h2b' := h2b (natCmp_eq_eq.mpr hxy.2)
  rw [then_ne_gt] at h1b' h2b' ⊢
  obtain ⟨h1c, h1d⟩ := h1b'
  obtain ⟨h2c, h2d⟩ := h2b'
  refine ⟨natCmp_notGt_trans h1c h2c, ?_⟩
  intro he2
  have he2' := natCmp_eq_eq.mp he2
  have hmid : x.2.1 = y.2.1 ∧ y.2.1 = z.2.1 := by
    have hx : ¬ y.2.1 < x.2.1 := fun hh => h1c (natCmp_eq_gt.mpr hh)
    have hy : ¬ z.2.1 < y.2.1 := fun hh => h2c (natCmp_eq_gt.mpr hh)
    omega
  exact natCmp_notGt_trans (h1d (natCmp_eq_eq.mpr hmid.1))
    (h2d (natCmp_eq_eq.mpr hmid.2))

/-- The member shape of a clustered-only view row assumed by the amended
claim: the aggregate, or a component parsing as MDT or OST. -/
def lustreShaped (m : MountR) : Prop :=
  m.fs = "filesystem_summary" ∨
  (∃ i, parse_lustre_component m.fs = some ("MDT", i)) ∨
  (∃ i, parse_lustre_component m.fs = some ("OST", i))

theorem parse_summary_none :
    parse_lustre_component "filesystem_summary" = none := by decide

theorem lustreRowCmp_eq_triCmp {a b : String}
    (ha : a = "filesystem_summary" ∨
      (∃ i, parse_lustre_component a = some ("MDT", i)) ∨
      (∃ i, parse_lustre_component a = some ("OST", i)))
    (hb : b = "filesystem_summary" ∨
      (∃ i, parse_lustre_component b = some ("MDT", i)) ∨
      (∃ i, parse_lustre_component b = some ("OST", i))) :
    lustreRowCmp a b = triCmp (lustreNameKey a) (lustreNameKey b) := by
  have hasum : ∀ (t : String) (i : Nat),
      parse_lustre_component a = some (t, i) → a ≠ "filesystem_summary" := by
    intro t i hp h0
    rw [h0, parse_summary_none] at hp
    cases hp
  have hbsum : ∀ (t : String) (i : Nat),
      parse_lustre_component b = some (t, i) → b ≠ "filesystem_summary" := by
    intro t i hp h0
    rw [h0, parse_summary_none] at hp
    cases hp
  rcases ha with rfl | ⟨i, hi⟩ | ⟨i, hi⟩ <;>
    rcases hb with rfl | ⟨j, hj⟩ | ⟨j, hj⟩
  · simp [lustreRowCmp, lustreNameKey, triCmp, strCmp_self, natCmp, Ordering.then]
  · have hbs := hbsum _ _ hj
    simp [lustreRowCmp, lustreNameKey, triCmp, hj, hbs, natCmp, Ordering.then]
  · have hbs := hbsum _ _ hj
    simp [lustreRowCmp, lustreNameKey, triCmp, hj, hbs, natCmp, Ordering.then]
  · have has := hasum _ _ hi
    simp [lustreRowCmp, lustreNameKey, triCmp, hi, has, natCmp, Ordering.then]
  · have has := hasum _ _ hi
    have hbs := hbsum _ _ hj
    simp [lustreRowCmp, lustreNameKey, triCmp, hi, hj, has, hbs, natCmp, Ordering.then]
  · have has := hasum _ _ hi
    have hbs := hbsum _ _ hj
    simp [lustreRowCmp, lustreNameKey, triCmp, hi, hj, has, hbs, natCmp, Ordering.then]
  · have has := hasum _ _ hi
    simp [lustreRowCmp, lustreNameKey, triCmp, hi, has, natCmp, Ordering.then]
  · have has := hasum _ _ hi
    have hbs := hbsum _ _ hj
    simp [lustreRowCmp, lustreNameKey, triCmp, hi, hj, has, hbs, natCmp, Ordering.then]
  · have has := hasum _ _ hi
    have hbs := hbsum _ _ hj
    simp [lustreRowCmp, lustreNameKey, triCmp, hi, hj, has, hbs, natCmp, Ordering.then]

/-- C6 (amended): whenever every displayed row of the clustered-only view
is the aggregate or parses as an MDT or OST component, the displayed order
is a permutation of the rows in which the aggregate sorts last, no OST
component precedes an MDT component, and same-family components are by
index ascending.  (With a mix of parseable and unparseable names the
comparator is not transitive and the global ordering can fail, see the
counterexample.) -/
theorem lustre_topology_sort_ordered (ms : List MountR)
    (hp : ∀ m ∈ ms, lustreShaped m) :
    List.Perm (lustreSort ms) ms ∧
    (lustreSort ms).Pairwise (fun a b =>
      (a.fs = "filesystem_summary" → b.fs = "filesystem_summary") ∧
      (∀ i j, parse_lustre_component a.fs = some ("OST", i) →
        parse_lustre_component b.fs = some ("MDT", j) → False) ∧
      (∀ t i j, parse_lustre_component a.fs = some (t, i) →
        parse_lustre_component b.fs = some (t, j) → i ≤ j)) := by
  have hperm := sortByRust_perm (fun a b => lustreRowCmp a.fs b.fs) ms
  refine ⟨hperm, ?_⟩
  have hswap : ∀ a b, lustreShaped a → lustreShaped b →
      lustreRowCmp b.fs a.fs = (lustreRowCmp a.fs b.fs).swap := by
    intro a b ha hb
    unfold lustreShaped at ha hb
    rw [lustreRowCmp_eq_triCmp hb ha, lustreRowCmp_eq_triCmp ha hb, triCmp_swap]
  have htrans : ∀ a b c, lustreShaped a → lustreShaped b → lustreShaped c →
      lustreRowCmp a.fs b.fs ≠ .gt → lustreRowCmp b.fs c.fs ≠ .gt →
      lustreRowCmp a.fs c.fs ≠ .gt := by
    intro a b c ha hb hc h1 h2
    unfold lustreShaped at ha hb hc
    rw [lustreRowCmp_eq_triCmp ha hb] at h1
    rw [lustreRowCmp_eq_triCmp hb hc] at h2
    rw [lustreRowCmp_eq_triCmp ha hc]
    exact triCmp_notGt_trans h1 h2
  have hpw := sortByRust_pairwise (fun a b => lustreRowCmp a.fs b.fs)
    lustreShaped hswap htrans ms hp
  refine hpw.imp_of_mem ?_
  intro a b hma hmb hcmp
  have hsa : lustreShaped a := hp a (hperm.mem_iff.mp hma)
  have hsb : lustreShaped b := hp b (hperm.mem_iff.mp hmb)
  have hsa' := hsa
  have hsb' := hsb
  unfold lustreShaped at hsa' hsb'
  dsimp only at hcmp
  rw [lustreRowCmp_eq_triCmp hsa' hsb'] at hcmp
  refine ⟨?_, ?_, ?_⟩
  · intro hafs
    by_contra hbfs
    have hka : lustreNameKey a.fs = (1, 0, 0) := by
      simp [lustreNameKey, hafs]
    rcases hsb' with h0 | ⟨j, hj⟩ | ⟨j, hj⟩
    · exact hbfs h0
    · have hkb : lustreNameKey b.fs = (0, 0, j) := by
        simp [lustreNameKey, hbfs, hj]
      rw [hka, hkb] at hcmp
      exact hcmp (by simp [triCmp, natCmp, Ordering.then])
    · have hkb : lustreNameKey b.fs = (0, 1, j) := by
        simp [lustreNameKey, hbfs, hj]
      rw [hka, hkb] at hcmp
      exact hcmp (by simp [triCmp, natCmp, Ordering.then])
  · intro i j hia hjb
    have hafs : a.fs ≠ "filesystem_summary" := by
      intro h0
      rw [h0, parse_summary_none] at hia
      cases hia
    have hbfs : b.fs ≠ "filesystem_summary" := by
      intro h0
      rw [h0, parse_summary_none] at hjb
      cases hjb
    have hka : lustreNameKey a.fs = (0, 1, i) := by
      simp [lustreNameKey, hafs, hia]
    have hkb : lustreNameKey b.fs = (0, 0, j) := by
      simp [lustreNameKey, hbfs, hjb]
    rw [hka, hkb] at hcmp
    unfold triCmp at hcmp
    simp [natCmp, Ordering.then] at hcmp
  · intro t i j hia hjb
    have hafs : a.fs ≠ "filesystem_summary" := by
      intro h0
      rw [h0, parse_summary_none] at hia
      cases hia
    have hbfs : b.fs ≠ "filesystem_summary" := by
      intro h0
      rw [h0, parse_summary_none] at hjb
      cases hjb
    have hka : lustreNameKey a.fs = (0, if t = "MDT" then 0 else 1, i) := by
      simp [lustreNameKey, hafs, hia]
    have hkb : lustreNameKey b.fs = (0, if t = "MDT" then 0 else 1, j) := by
      simp [lustreNameKey, hbfs, hjb]
    rw [hka, hkb] at hcmp
    unfold triCmp at hcmp
    dsimp only at hcmp
    rw [then_ne_gt] at hcmp
    have h2 := hcmp.2 (by simp [natCmp])
    rw [then_ne_gt] at h2
    have h3 := h2.2 (by simp [natCmp])
    have hij : ¬ j < i := fun hh => h3 (natCmp_eq_gt.mpr hh)
    omega

/-- Four clustered rows of the C6 counterexample: two OST components, an
unparseable name, one MDT component. -/
def lw : MountR :=
  { fs := "a-OST0000_q", fs_type := "lustre", mount_point := "/mnt/l[OST:0]",
    dev_major := 2, dev_minor := 0, bound := false, remote := true,
    disk := false, stats := .ok ⟨4096, 1, 1, 1, none⟩ }

def lO : MountR :=
  { fs := "a-OST0001_x", fs_type := "lustre", mount_point := "/mnt/l[OST:1]",
    dev_major := 2, dev_minor := 1, bound := false, remote := true,
    disk := false, stats := .ok ⟨4096, 1, 1, 1, none⟩ }

def lz : MountR :=
  { fs := "m", fs_type := "lustre", mount_point := "/mnt/l",
    dev_major := 0, dev_minor := 0, bound := false, remote := true,
    disk := false, stats := .ok ⟨4096, 1, 1, 1, none⟩ }

def lM : MountR :=
  { fs := "z-MDT0001_x", fs_type := "lustre", mount_point := "/mnt/l[MDT:1]",
    dev_major := 1, dev_minor := 1, bound := false, remote := true,
    disk := false, stats := .ok ⟨4096, 1, 1, 1, none⟩ }

/-- C6 counterexample: with an unparseable name among the component rows
the comparator is intransitive and the displayed order puts both OST
components before the MDT component - an OST sorts before an MDT,
refuting the claimed ordering as stated. -/
theorem lustre_topology_sort_counterexample :
    lustreSort [lw, lO, lz, lM] = [lw, lO, lz, lM] ∧
    parse_lustre_component lw.fs = some ("OST", 0) ∧
    parse_lustre_component lM.fs = some ("MDT", 1) ∧
    lw.fs ≠ "filesystem_summary" ∧ lM.fs ≠ "filesystem_summary" := by
  exact ⟨by decide, by decide, by decide, by decide, by decide⟩

theorem lustre_topology_sort_ordered_witness :
    List.Perm (lustreSort [lO, lM]) [lO, lM] ∧
    (lustreSort [lO, lM]).Pairwise (fun a b =>
      (a.fs = "filesystem_summary" → b.fs = "filesystem_summary") ∧
      (∀ i j, parse_lustre_component a.fs = some ("OST", i) →
        parse_lustre_component b.fs = some ("MDT", j) → False) ∧
      (∀ t i j, parse_lustre_component a.fs = some (t, i) →
        parse_lustre_component b.fs = some (t, j) → i ≤ j)) :=
  lustre_topology_sort_ordered [lO, lM] (by
    intro m hm
    rcases List.mem_cons.mp hm with rfl | hm2
    · exact Or.inr (Or.inr ⟨1, by decide⟩)
    · rcases List.mem_cons.mp hm2 with rfl | hm3
      · exact Or.inr (Or.inl ⟨1, by decide⟩)
      · cases hm3)

/-! ## The run pipeline
(cli/src/lib.rs run, cli/src/normal.rs is_normal) -/

/-- Mount::stats(): the Ok stats, if any. -/
def MountR.statsOk (m : MountR) : Option Stats :=
  match m.stats with
  | .ok s => some s
  | _ => none

/-- Mount::is_unreachable(). -/
def MountR.is_unreachable (m : MountR) : Bool :=
  match m.stats with
  | .unreachable => true
  | _ => false

/-- normal.rs is_normal: lustre rows are always normal; otherwise the row
needs stats or the unreachable marker, a disk or zfs or remote (or lustre)
nature, must not be a bind mount and not squashfs. -/
def is_normal (m : MountR) : Bool :=
  if m.fs_type == "lustre" then true
  else
    (m.statsOk.isSome || m.is_unreachable) &&
    (m.disk || m.fs_type == "zfs" || m.remote || m.fs_type == "lustre") &&
    !m.bound &&
    !(m.fs_type == "squashfs")

/-- Whether pat occurs in s. -/
def containsSub (s pat : String) : Bool := (findSub s.toList pat.toList).isSome

/-- lib.rs is_lustre_server_component: heuristic substring match on the
mount path. -/
def is_lustre_server_component (mount_point : String) : Bool :=
  containsSub mount_point "-ost" ||
  containsSub mount_point "-mdt" ||
  containsSub mount_point "-mds" ||
  (containsSub mount_point "ost" &&
    (containsSub mount_point "lustre" || containsSub mount_point "scratch")) ||
  (containsSub mount_point "mdt" &&
    (containsSub mount_point "lustre" || containsSub mount_point "scratch"))

/-- lib.rs is_lustre_component_mount: a synthesized component path. -/
def is_lustre_component_mount (m : MountR) : Bool :=
  containsSub m.mount_point "[MDT:" || containsSub m.mount_point "[OST:"

/-- lib.rs replace_lustre_client_mounts: each discovered client (non
component) row replaces the catalog lustre row with the same mount point,
or is appended. -/
def replace_lustre_client_mounts (mounts : List MountR)
    (lustre_mounts : List MountR) : List MountR :=
  lustre_mounts.foldl (fun acc lm =>
    if is_lustre_component_mount lm then acc
    else
      match acc.findIdx? (fun m =>
          m.fs_type == "lustre" && m.mount_point == lm.mount_point) with
      | some pos => acc.set pos lm
      | none => acc ++ [lm]) mounts

/-- Col::Size's comparator (cli/src/col.rs): by bsize * blocks, rows
without stats first in ascending order. -/
def sizeCmp (a b : MountR) : Ordering :=
  match a.statsOk, b.statsOk with
  | some sa, some sb => natCmp (sa.bsize * sa.blocks) (sb.bsize * sb.blocks)
  | some _, none => .gt
  | none, some _ => .lt
  | none, none => .eq

/-- Modelled from the spec: the default sort applied by args.sort - the
total-size column, descending (cli/src/sorting.rs is not among the
sources; the Size comparator itself is from cli/src/col.rs and descending
order reverses it, placing absent stats last). -/
def sortSizeDesc (ms : List MountR) : List MountR :=
  sortByRust (fun a b => (sizeCmp a b).swap) ms

/-- Path::starts_with used by the lustre path filter, modelled as a string
prefix test (the code paths proved here do not depend on the component
boundary refinement of the Rust Path semantics). -/
def pathStartsWith (p base : String) : Bool := isPrefixOfC base.toList p.toList

/-- The stat outcome and classification of a requested path argument:
statResult none models a failing fs::metadata call, otherwise the device
id of the path; is_lustre records whether the external LustrePath::parse
succeeded. -/
structure PathArg where
  statResult : Option (Nat × Nat)
  is_lustre : Bool
  path_str : String
deriving Repr, DecidableEq

/-- A fatal run outcome: the mount-table or path-metadata IoError (its
message elided). -/
inductive RunError where
  | ioError
deriving Repr, DecidableEq

/-- The argument slice run reads for row selection: the show-all flag and
the optional path argument (column options affect only rendering). -/
structure ArgsR where
  all : Bool
  path : Option PathArg
deriving Repr, DecidableEq

/-- lib.rs run, from the mount catalog read to the final row list handed
to the renderer.  catalog is the lfs-core mount table; discovered stands
for the external rustreapi MountStats::discover_mounts result; ks is the
iteration order of check_duplicate's HashMap buckets; the external filter
expression defaults to the identity (no --filter in the runs modelled
here). -/
def run (args : ArgsR) (catalog : List MountR) (discovered : List MountR)
    (ks : List String) : Except RunError (List MountR) :=
  let mounts0 := catalog.filter (fun m =>
    if m.fs_type == "lustre" then !(is_lustre_server_component m.mount_point)
    else true)
  let mounts1 := replace_lustre_client_mounts mounts0 discovered
  let comp := discovered.filter is_lustre_component_mount
  let mounts2 := mounts1 ++ comp
  let has_lustre := !comp.isEmpty || mounts2.any (fun m => m.fs_type == "lustre")
  let mounts3 :=
    if !args.all then
      if has_lustre then lustreSort (mounts2.filter (fun m => m.fs_type == "lustre"))
      else sortSizeDesc (mounts2.filter is_normal)
    else sortSizeDesc mounts2
  match args.path with
  | some p =>
      (match p.statResult with
       | none => .error RunError.ioError
       | some dev =>
          let mounts4 :=
            if p.is_lustre then
              mounts3.filter (fun m => m.fs_type == "lustre" &&
                pathStartsWith p.path_str m.mount_point)
            else
              mounts3.filter (fun m =>
                m.dev_major == dev.1 && m.dev_minor == dev.2)
          let lustre_only := has_lustre && !args.all &&
            mounts4.all (fun m => m.fs_type == "lustre")
          let mounts5 := if !lustre_only then sortSizeDesc mounts4 else mounts4
          let mounts6 := check_duplicate ks mounts5
          .ok (if lustre_only then lustreSort mounts6 else mounts6))
  | none =>
      let lustre_only := has_lustre && !args.all &&
        mounts3.all (fun m => m.fs_type == "lustre")
      let mounts5 := if !lustre_only then sortSizeDesc mounts3 else mounts3
      let mounts6 := check_duplicate ks mounts5
      .ok (if lustre_only then lustreSort mounts6 else mounts6)

deriving instance DecidableEq for Except

/-- C8: when the requested path argument fails to stat, the run aborts
with the fatal IoError and no rows are rendered, for every catalog,
discovery result and bucket order. -/
theorem run_path_stat_failure (args : ArgsR) (catalog discovered : List MountR)
    (ks : List String) (p : PathArg)
    (hpath : args.path = some p) (hstat : p.statResult = none) :
    run args catalog discovered ks = .error RunError.ioError := by
  simp only [run, hpath, hstat]

theorem run_path_stat_failure_witness :
    run ⟨false, some ⟨none, false, "/nope"⟩⟩ [] [] [] = .error RunError.ioError :=
  run_path_stat_failure ⟨false, some ⟨none, false, "/nope"⟩⟩ [] [] []
    ⟨none, false, "/nope"⟩ rfl rfl

/-- Two ordinary mounts on distinct devices, used for the scenario-A
evaluation: mA7 is by far the larger filesystem. -/
def mA7 : MountR :=
  { fs := "/dev/sda1", fs_type := "ext4", mount_point := "/big",
    dev_major := 8, dev_minor := 1, bound := false, remote := false,
    disk := true, stats := .ok ⟨4096, 1000, 100, 90, none⟩ }

def mB7 : MountR :=
  { fs := "/dev/sdb1", fs_type := "ext4", mount_point := "/small",
    dev_major := 8, dev_minor := 2, bound := false, remote := false,
    disk := true, stats := .ok ⟨4096, 10, 5, 4, none⟩ }

/-- C7, evaluated at the failing input: with two ordinary mounts on
distinct devices and no clustered storage, both rows appear in the final
output, but when the deduplication HashMap iterates the smaller mount's
bucket first the rows are emitted smaller-first - the size-descending
order established before deduplication is not re-applied for the ordinary
view, so the displayed order is not size-descending. -/
theorem run_two_ordinary_mounts_order_bug :
    run ⟨false, none⟩ [mA7, mB7] [] [groupKey mB7, groupKey mA7] =
      .ok [mB7, mA7] ∧
    sizeCmp mA7 mB7 = .gt ∧
    List.Perm ([mA7, mB7].map groupKey) [groupKey mB7, groupKey mA7] ∧
    mA7 ≠ mB7 := by
  exact ⟨by decide, by decide, by decide, by decide⟩

/-! ## The column enumeration
(cli/src/col.rs col_enum!, Col::from_str, ParseColError) -/

/-- The closed column enumeration of cli/src/col.rs. -/
inductive Col where
  | Id | Dev | Filesystem | Label | Type' | Remote | Disk
  | Used | Use | UsePercent | Free | FreePercent | Size
  | InodesUsed | InodesUse | InodesUsePercent | InodesFree | InodesCount
  | MountPoint | FsName | Uuid | PartUuid
  | StripeCount | StripeSize | LustreVersion | PoolName
  | ComponentType | ComponentIndex | MirrorCount
deriving Repr, DecidableEq

/-- The canonical token of each column (the first literal of each
col_enum! line). -/
def Col.name : Col → String
  | .Id => "id"
  | .Dev => "dev"
  | .Filesystem => "fs"
  | .Label => "label"
  | .Type' => "type"
  | .Remote => "remote"
  | .Disk => "disk"
  | .Used => "used"
  | .Use => "use"
  | .UsePercent => "use_percent"
  | .Free => "free"
  | .FreePercent => "free_percent"
  | .Size => "size"
  | .InodesUsed => "inodes_used"
  | .InodesUse => "inodes"
  | .InodesUsePercent => "inodes_use_percent"
  | .InodesFree => "inodes_free"
  | .InodesCount => "inodes_total"
  | .MountPoint => "mount"
  | .FsName => "fsname"
  | .Uuid => "uuid"
  | .PartUuid => "partuuid"
  | .StripeCount => "stripe_count"
  | .StripeSize => "stripe_size"
  | .LustreVersion => "lustre_version"
  | .PoolName => "pool_name"
  | .ComponentType => "component_type"
  | .ComponentIndex => "component_index"
  | .MirrorCount => "mirror_count"

/-- The alias tokens of each column (the remaining literals before the
colon of each col_enum! line). -/
def Col.aliases : Col → List String
  | .Id => []
  | .Dev => ["device", "device_id"]
  | .Filesystem => ["filesystem"]
  | .Label => []
  | .Type' => []
  | .Remote => ["rem"]
  | .Disk => ["dsk"]
  | .Used => []
  | .Use => []
  | .UsePercent => []
  | .Free => []
  | .FreePercent => []
  | .Size => []
  | .InodesUsed => ["iused"]
  | .InodesUse => ["ino", "inodes_use", "iuse"]
  | .InodesUsePercent => ["iuse_percent"]
  | .InodesFree => ["ifree"]
  | .InodesCount => ["inodes_count", "itotal"]
  | .MountPoint => ["mount_point", "mp"]
  | .FsName => ["fs_name"]
  | .Uuid => []
  | .PartUuid => ["part_uuid"]
  | .StripeCount => ["stripes"]
  | .StripeSize => []
  | .LustreVersion => ["lus_ver"]
  | .PoolName => ["pool"]
  | .ComponentType => ["comp_type"]
  | .ComponentIndex => ["comp_idx"]
  | .MirrorCount => ["mirrors"]

/-- The error carrying the offending token (col.rs ParseColError). -/
structure ParseColError where
  raw : String
deriving Repr, DecidableEq

/-- The match arms of the generated Col::from_str, in declaration order:
for each column its canonical name, then its aliases. -/
def colFromStrTable : List (String × Col) :=
  [Col.Id, Col.Dev, Col.Filesystem, Col.Label, Col.Type', Col.Remote, Col.Disk,
   Col.Used, Col.Use, Col.UsePercent, Col.Free, Col.FreePercent, Col.Size,
   Col.InodesUsed, Col.InodesUse, Col.InodesUsePercent, Col.InodesFree,
   Col.InodesCount, Col.MountPoint, Col.FsName, Col.Uuid, Col.PartUuid,
   Col.StripeCount, Col.StripeSize, Col.LustreVersion, Col.PoolName,
   Col.ComponentType, Col.ComponentIndex, Col.MirrorCount].flatMap
    (fun c => (c.name, c) :: c.aliases.map (fun a => (a, c)))

/-- col.rs Col::from_str: first matching arm wins, an unmatched token
yields ParseColError::new(s). -/
def Col.fromStr (s : String) : Except ParseColError Col :=
  match colFromStrTable.find? (fun p => p.1 == s) with
  | some p => .ok p.2
  | none => .error ⟨s⟩

/-- C9: parsing is a left inverse of formatting - the canonical name and
every alias of every column parse back to that column - and parsing any
unmatched token yields a ParseColError carrying the offending string
verbatim. -/
theorem col_from_str_left_inverse :
    (∀ c : Col, Col.fromStr c.name = .ok c ∧
      ∀ a ∈ c.aliases, Col.fromStr a = .ok c) ∧
    (∀ s e, Col.fromStr s = .error e → e.raw = s) := by
  constructor
  · intro c
    cases c <;> exact ⟨by decide, by decide⟩
  · intro s e h
    unfold Col.fromStr at h
    cases hf : colFromStrTable.find? (fun p => p.1 == s) with
    | some p => rw [hf] at h; cases h
    | none =>
        rw [hf] at h
        cases h
        rfl

theorem col_from_str_left_inverse_witness :
    Col.fromStr (Col.name .Size) = .ok .Size ∧
    Col.fromStr "stripes" = .ok .StripeCount ∧
    (⟨"zzz"⟩ : ParseColError).raw = "zzz" :=
  ⟨(col_from_str_left_inverse.1 Col.Size).1,
   (col_from_str_left_inverse.1 Col.StripeCount).2 "stripes" (by decide),
   col_from_str_left_inverse.2 "zzz" ⟨"zzz"⟩ (by decide)⟩

/-! ## CSV output
(cli/src/csv.rs Csv::cell, cell_opt, end_line, print) -/

/-- csv.rs: a cell needs quoting when it contains the separator, a double
quote, or a newline. -/
def csvNeedsQuotes (sep : Char) (s : List Char) : Bool :=
  s.contains sep || s.contains '"' || s.contains '\n'

/-- csv.rs: inside a quoted cell every double quote is doubled. -/
def csvEscape (s : List Char) : List Char :=
  s.flatMap (fun c => if c == '"' then ['"', '"'] else [c])

/-- Csv::cell: the (possibly quoted) content followed by one separator,
written to the byte stream (modelled as characters). -/
def csvCell (sep : Char) (s : List Char) : List Char :=
  (if csvNeedsQuotes sep s then '"' :: (csvEscape s ++ ['"']) else s) ++ [sep]

/-- Csv::cell_opt: an absent value writes only the separator. -/
def csvCellOpt (sep : Char) (s : Option (List Char)) : List Char :=
  match s with
  | some c => csvCell sep c
  | none => [sep]

/-- One output line of csv.rs print: every cell of the row, then
end_line's newline. -/
def csvLine (sep : Char) (cells : List (Option (List Char))) : List Char :=
  cells.flatMap (csvCellOpt sep) ++ ['\n']

theorem csvCellOpt_ends_sep (sep : Char) (oc : Option (List Char)) :
    ∃ b, csvCellOpt sep oc = b ++ [sep] := by
  cases oc with
  | none => exact ⟨[], rfl⟩
  | some c => exact ⟨_, rfl⟩

/-- C10: every written cell - plain or quoted, present or absent - ends
with exactly one separator appended outside the (closing) quote, the
quotes enclosing only the escaped cell content; hence every emitted CSV
line of a non-empty row ends with a trailing separator right before its
newline. -/
theorem csv_trailing_separator (sep : Char) :
    (∀ s : List Char, ∃ body, csvCell sep s = body ++ [sep] ∧
      (csvNeedsQuotes sep s = true → body = '"' :: (csvEscape s ++ ['"'])) ∧
      (csvNeedsQuotes sep s = false → body = s)) ∧
    (∀ cells : List (Option (List Char)), cells ≠ [] →
      ∃ pre, csvLine sep cells = pre ++ [sep, '\n']) := by
  constructor
  · intro s
    by_cases h : csvNeedsQuotes sep s
    · exact ⟨'"' :: (csvEscape s ++ ['"']), by simp [csvCell, h], fun _ => rfl,
        fun hf => absurd h (by simp [hf])⟩
    · have hf : csvNeedsQuotes sep s = false := by simpa using h
      exact ⟨s, by simp [csvCell, hf], fun ht => absurd ht (by simp [hf]),
        fun _ => rfl⟩
  · intro cells hne
    have hflat : ∀ (cs : List (Option (List Char))), cs ≠ [] →
        ∃ pre, cs.flatMap (csvCellOpt sep) = pre ++ [sep] := by
      intro cs
      induction cs with
      | nil => intro h; exact absurd rfl h
      | cons c rest ih =>
          intro _
          cases hrest : rest with
          | nil =>
              obtain ⟨b, hb⟩ := csvCellOpt_ends_sep sep c
              exact ⟨b, by simp [hb]⟩
          | cons c2 r2 =>
              obtain ⟨pre, hpre⟩ := ih (by simp [hrest])
              rw [← hrest]
              refine ⟨csvCellOpt sep c ++ pre, ?_⟩
              rw [List.flatMap_cons, hpre, List.append_assoc]
    obtain ⟨pre, hpre⟩ := hflat cells hne
    refine ⟨pre, ?_⟩
    unfold csvLine
    rw [hpre, List.append_assoc]
    rfl

theorem csv_trailing_separator_witness :
    (∃ body, csvCell ';' "1;2;3".toList = body ++ [';'] ∧
      (csvNeedsQuotes ';' "1;2;3".toList = true →
        body = '"' :: (csvEscape "1;2;3".toList ++ ['"'])) ∧
      (csvNeedsQuotes ';' "1;2;3".toList = false → body = "1;2;3".toList)) ∧
    (∃ pre, csvLine ';' [some "1;2;3".toList, some ['"'], none] =
      pre ++ [';', '\n']) ∧
    csvLine ';' [some "1;2;3".toList, some ['"'], none] =
      "\"1;2;3\";\"\"\"\";;\n".toList :=
  ⟨(csv_trailing_separator ';').1 "1;2;3".toList,
   (csv_trailing_separator ';').2 [some "1;2;3".toList, some ['"'], none]
     (by decide),
   by decide⟩
